import Mathlib

/-!
A shallow embedding of the SGA genetic-algorithm engine (src/src/sga.hpp)
together with proofs about its operators, ending criteria and evolution loop.

Modelling conventions:
* `Score` is `ℚ` (the C++ uses `double`); the verified properties are order-
  and arithmetic-theoretic, not statements about floating-point rounding.
* Randomness is an explicit oracle of raw entropy values.  The integer draw
  `Random::get(lo, hi)`, uniform over the closed range `[lo, hi]`, is modelled
  as `lo + r % (hi + 1 - lo)` for a raw oracle value `r`; the real draw
  `Random::get(min, max)` (`std::uniform_real_distribution`, half-open
  `[lo, hi)`) as `lo + (hi - lo) * Int.fract u`.  Every value of the C++
  distribution's support is realised by some oracle value, so quantifying over
  oracles quantifies over every possible sequence of random draws.
* C++ loops with no structural termination measure take a fuel argument and
  return `Option`; `none` models an execution that does not terminate within
  the given fuel, or undefined behaviour such as dereferencing
  `prev(end())` of an empty container.
* The user-supplied callbacks are parameters: `score` is an arbitrary
  function `Chromosome T → Score`, and the values produced by `randomGene()`
  are a stream inside the oracle.
-/

namespace SGA

/-- Fitness score; `typedef double Score` (sga.hpp line 40). -/
abbrev Score := ℚ

/-- Chromosome: a vector of genes (sga.hpp line 33). -/
abbrev Chromosome (T : Type) := List T

/-- Population: a vector of chromosomes (sga.hpp line 37). -/
abbrev Population (T : Type) := List (Chromosome T)

/-- Model of `std::multimap<Score, Chromosome<T>> _population` (sga.hpp line
183): a list of (score, chromosome) entries kept sorted ascending by score;
among equal scores the most recent insertion is rightmost, because
`multimap::insert` places an element at the upper bound of its equal range. -/
abbrev Store (T : Type) := List (Score × Chromosome T)

/-- Ending criteria.  `MaxScore` and `BestScore` are the two members of the
enum in src/src/sga.hpp line 56.  `NeverStop` — Modelled from the spec: the
GA2DPacking example (mainwindow.cpp line 21) configures
`SGA::EndingCriterion::NeverStop` against its own copy of sga.hpp, a file that
is not present under src/; per the spec it is "not a computed criterion" and
with it "the engine loops until externally stopped". -/
inductive EndingCriterion where
  | MaxScore
  | BestScore
  | NeverStop
deriving DecidableEq, Repr

/-- Selection strategies (sga.hpp line 64). -/
inductive SelectionType where
  | RouletteWheel
  | StochasticUniversal
  | Tournament
deriving DecidableEq, Repr

/-- Raw entropy consumed by `SGA::Random` plus the stream of gene values
produced by the user callback `randomGene()`.  A finite list suffices for any
terminating execution; an exhausted stream keeps yielding its default. -/
structure Oracle (T : Type) where
  ints : List Nat
  reals : List ℚ
  genes : List T
deriving Repr

/-- Consume one raw integer entropy value (0 once exhausted). -/
def takeInt {T : Type} (o : Oracle T) : Nat × Oracle T :=
  match o.ints with
  | [] => (0, o)
  | r :: rest => (r, { o with ints := rest })

/-- Consume one raw real entropy value (0 once exhausted). -/
def takeReal {T : Type} (o : Oracle T) : ℚ × Oracle T :=
  match o.reals with
  | [] => (0, o)
  | u :: rest => (u, { o with reals := rest })

/-- Consume one gene from the `randomGene()` stream. -/
def takeGene {T : Type} [Inhabited T] (o : Oracle T) : T × Oracle T :=
  match o.genes with
  | [] => (default, o)
  | g :: rest => (g, { o with genes := rest })

/-- Integer draw `Random::get(lo, hi)` (sga.hpp lines 84-94), uniform over the
closed range `[lo, hi]`.  The raw value is reduced into the range; when
`lo ≤ hi` every value of `[lo, hi]` is realisable. -/
def drawInt {T : Type} (o : Oracle T) (lo hi : Nat) : Nat × Oracle T :=
  let p := takeInt o
  (lo + p.1 % (hi + 1 - lo), p.2)

/-- Fractional part of a rational, used to place a raw real entropy value
into the unit interval: `fract u = u - ⌊u⌋ ∈ [0, 1)`. -/
def fract (u : ℚ) : ℚ := u - (u.floor : ℚ)

theorem fract_eq_int_fract (u : ℚ) : fract u = Int.fract u := by
  have hfl : Rat.floor u = ⌊u⌋ := by
    rw [Rat.floor_def' u, Rat.floor_def]
  rw [fract, Int.fract, hfl]

theorem fract_nonneg (u : ℚ) : 0 ≤ fract u := by
  rw [fract_eq_int_fract]
  exact Int.fract_nonneg u

theorem fract_lt_one (u : ℚ) : fract u < 1 := by
  rw [fract_eq_int_fract]
  exact Int.fract_lt_one u

/-- Real draw `Random::get(min, max)` (sga.hpp lines 72-82):
`std::uniform_real_distribution` samples the half-open interval `[lo, hi)`. -/
def drawReal {T : Type} (o : Oracle T) (lo hi : ℚ) : ℚ × Oracle T :=
  let p := takeReal o
  (lo + (hi - lo) * fract p.1, p.2)

/-- Insertion into the multimap `_population`: `multimap::insert` places the
new element at the upper bound of its key's equal range, i.e. after every
entry whose score is ≤ s and before the first entry whose score exceeds s. -/
def storeInsert {T : Type} (s : Score) (c : Chromosome T) : Store T → Store T
  | [] => [(s, c)]
  | e :: rest => if s < e.1 then (s, c) :: e :: rest else e :: storeInsert s c rest

/-- Scoring pass at the top of `evolve` (sga.hpp lines 383-387): clear
`_population`, then insert `(score(chromosome), chromosome)` for every
chromosome of the working population. -/
def scorePop {T : Type} (score : Chromosome T → Score) (pop : Population T) : Store T :=
  pop.foldl (fun st c => storeInsert (score c) c st) []

/-- Model of `lastElement` (sga.hpp lines 684-688): it dereferences
`prev(_population.end())` with no emptiness guard, which on an empty store is
undefined behaviour — modelled as `none`. -/
def lastElement? {T : Type} (st : Store T) : Option (Score × Chromosome T) :=
  st.getLast?

/-- Model of `best` (sga.hpp lines 324-328): `lastElement().second`. -/
def best? {T : Type} (st : Store T) : Option (Chromosome T) :=
  (lastElement? st).map Prod.snd

/-- Model of `score(unsigned index)` (sga.hpp lines 625-637): 0 when the index
is out of range, otherwise the score of the index-th entry in ascending
order. -/
def scoreAt {T : Type} (st : Store T) (index : Nat) : Score :=
  if st.length ≤ index then 0 else ((st.get? index).getD (0, [])).1

/-- Model of `totalScore` (sga.hpp lines 639-650): sum of all scores. -/
def totalScore {T : Type} (st : Store T) : Score :=
  st.foldl (fun acc e => acc + e.1) 0

/-- Walk of `chromosome(Score fitness)` (sga.hpp lines 652-668) over the
remaining entries, carrying the running cumulative score; falls back to the
best element of the full store when the threshold is never reached. -/
def chromosomeByFitnessAux {T : Type} (full : Store T) (fitness : Score) :
    Store T → Score → Option (Chromosome T)
  | [], _ => best? full
  | e :: rest, cumulative =>
      if fitness ≤ cumulative + e.1 then some e.2
      else chromosomeByFitnessAux full fitness rest (cumulative + e.1)

/-- Model of `chromosome(Score fitness)` (sga.hpp lines 652-668): the first
chromosome, in ascending score order, whose running cumulative score reaches
the requested fitness; `lastElement().second` when no entry does (undefined —
`none` — on an empty store). -/
def chromosomeByFitness? {T : Type} (st : Store T) (fitness : Score) : Option (Chromosome T) :=
  chromosomeByFitnessAux st fitness st 0

/-- Model of `chromosome(unsigned index)` (sga.hpp lines 670-682): the
chromosome at the given ascending rank, with the defensive fallback
`lastElement().second` when the index is out of range. -/
def chromosomeAt? {T : Type} (st : Store T) (index : Nat) : Option (Chromosome T) :=
  if st.length ≤ index then best? st
  else (st.get? index).map Prod.snd

/-! Basic facts about the store. -/

theorem storeInsert_ne_nil {T : Type} (s : Score) (c : Chromosome T) (st : Store T) :
    storeInsert s c st ≠ [] := by
  cases st with
  | nil => simp [storeInsert]
  | cons e rest =>
      unfold storeInsert
      split <;> simp

theorem length_storeInsert {T : Type} (s : Score) (c : Chromosome T) (st : Store T) :
    (storeInsert s c st).length = st.length + 1 := by
  induction st with
  | nil => simp [storeInsert]
  | cons e rest ih =>
      unfold storeInsert
      split <;> simp [ih]

theorem mem_storeInsert {T : Type} (a : Score × Chromosome T) (s : Score)
    (c : Chromosome T) (st : Store T) :
    a ∈ storeInsert s c st ↔ a = (s, c) ∨ a ∈ st := by
  induction st with
  | nil => simp [storeInsert]
  | cons e rest ih =>
      unfold storeInsert
      split
      · simp [or_comm, or_left_comm, or_assoc]
      · simp [ih]
        tauto

theorem pairwise_storeInsert {T : Type} (s : Score) (c : Chromosome T) (st : Store T)
    (h : st.Pairwise (fun a b => a.1 ≤ b.1)) :
    (storeInsert s c st).Pairwise (fun a b => a.1 ≤ b.1) := by
  induction st with
  | nil => simp [storeInsert]
  | cons e rest ih =>
      rw [List.pairwise_cons] at h
      unfold storeInsert
      split
      · rename_i hlt
        refine List.pairwise_cons.mpr ⟨?_, List.pairwise_cons.mpr ⟨h.1, h.2⟩⟩
        intro b hb
        rcases List.mem_cons.mp hb with hb | hb
        · exact hb ▸ le_of_lt hlt
        · exact le_trans (le_of_lt hlt) (h.1 b hb)
      · rename_i hge
        refine List.pairwise_cons.mpr ⟨?_, ih h.2⟩
        intro b hb
        rcases (mem_storeInsert b s c rest).mp hb with hb | hb
        · exact hb ▸ le_of_not_lt hge
        · exact h.1 b hb

/-- Members of a fold of insertions are the seed members plus the inserted
scored chromosomes. -/
theorem mem_scoreFold {T : Type} (score : Chromosome T → Score) (pop : Population T)
    (st0 : Store T) (a : Score × Chromosome T) :
    a ∈ pop.foldl (fun st c => storeInsert (score c) c st) st0 ↔
      a ∈ st0 ∨ ∃ c ∈ pop, a = (score c, c) := by
  induction pop generalizing st0 with
  | nil => simp
  | cons c rest ih =>
      simp only [List.foldl_cons, ih, mem_storeInsert]
      constructor
      · rintro (⟨h | h⟩ | ⟨d, hd, hda⟩)
        · exact Or.inr ⟨c, by simp, h⟩
        · exact Or.inl h
        · exact Or.inr ⟨d, by simp [hd], hda⟩
      · rintro (h | ⟨d, hd, hda⟩)
        · exact Or.inl (Or.inr h)
        · rcases List.mem_cons.mp hd with rfl | hd
          · exact Or.inl (Or.inl hda)
          · exact Or.inr ⟨d, hd, hda⟩

theorem mem_scorePop {T : Type} (score : Chromosome T → Score) (pop : Population T)
    (a : Score × Chromosome T) :
    a ∈ scorePop score pop ↔ ∃ c ∈ pop, a = (score c, c) := by
  unfold scorePop
  rw [mem_scoreFold]
  simp

theorem length_scoreFold {T : Type} (score : Chromosome T → Score) (pop : Population T)
    (st0 : Store T) :
    (pop.foldl (fun st c => storeInsert (score c) c st) st0).length =
      st0.length + pop.length := by
  induction pop generalizing st0 with
  | nil => simp
  | cons c rest ih =>
      simp only [List.foldl_cons, ih, length_storeInsert, List.length_cons]
      omega

theorem length_scorePop {T : Type} (score : Chromosome T → Score) (pop : Population T) :
    (scorePop score pop).length = pop.length := by
  unfold scorePop
  rw [length_scoreFold]
  simp

theorem pairwise_scoreFold {T : Type} (score : Chromosome T → Score) (pop : Population T)
    (st0 : Store T) (h : st0.Pairwise (fun a b => a.1 ≤ b.1)) :
    (pop.foldl (fun st c => storeInsert (score c) c st) st0).Pairwise
      (fun a b => a.1 ≤ b.1) := by
  induction pop generalizing st0 with
  | nil => exact h
  | cons c rest ih =>
      exact ih _ (pairwise_storeInsert _ _ _ h)

theorem pairwise_scorePop {T : Type} (score : Chromosome T → Score) (pop : Population T) :
    (scorePop score pop).Pairwise (fun a b => a.1 ≤ b.1) := by
  unfold scorePop
  exact pairwise_scoreFold score pop [] (by simp)

/-- In a store sorted ascending by score, every member's score is at most the
score of the last element. -/
theorem mem_le_getLast {T : Type} (st : Store T)
    (hp : st.Pairwise (fun a b => a.1 ≤ b.1)) (x : Score × Chromosome T)
    (hx : x ∈ st) (h : st ≠ []) : x.1 ≤ (st.getLast h).1 := by
  induction st with
  | nil => exact absurd rfl h
  | cons e rest ih =>
      rw [List.pairwise_cons] at hp
      cases rest with
      | nil =>
          simp only [List.mem_singleton] at hx
          simp [hx, List.getLast]
      | cons f rest2 =>
          rw [List.getLast_cons (by simp)]
          rcases List.mem_cons.mp hx with rfl | hx
          · exact le_trans (hp.1 _ (List.getLast_mem (by simp))) (le_refl _)
          · exact ih hp.2 hx (by simp)

/-- The freshly scored store is non-empty whenever the scored population is,
and its last element is a population member achieving the maximum score. -/
theorem lastElement_scorePop_max {T : Type} (score : Chromosome T → Score)
    (pop : Population T) (h : pop ≠ []) :
    ∃ c ∈ pop, lastElement? (scorePop score pop) = some (score c, c) ∧
      ∀ d ∈ pop, score d ≤ score c := by
  have hne : scorePop score pop ≠ [] := by
    intro hcontra
    have hlen := length_scorePop score pop
    rw [hcontra] at hlen
    exact h (List.length_eq_zero.mp hlen.symm)
  have hlast := List.getLast_mem hne
  rcases (mem_scorePop score pop _).mp hlast with ⟨c, hc, hca⟩
  refine ⟨c, hc, ?_, ?_⟩
  · unfold lastElement?
    rw [List.getLast?_eq_getLast _ hne, hca]
  · intro d hd
    have hmem : (score d, d) ∈ scorePop score pop :=
      (mem_scorePop score pop _).mpr ⟨d, hd, rfl⟩
    have := mem_le_getLast (scorePop score pop) (pairwise_scorePop score pop)
      (score d, d) hmem hne
    rw [hca] at this
    exact this

/-! The engine's configuration parameters (sga.hpp lines 171-179). -/

/-- Configuration parameters of GeneticAlgorithm (sga.hpp lines 171-179). -/
structure Config where
  populationSize : Nat
  endCriterion : EndingCriterion
  selectionType : SelectionType
  mutationProbability : ℚ
  maxEndScore : Score
  steadyGenerations : Nat
  tournamentSize : Nat
  minChromosomeSize : Nat
  maxChromosomeSize : Nat
deriving Repr

/-! Selection (sga.hpp lines 484-547). -/

/-- Index-drawing loop of tournament selection (sga.hpp lines 521-525):
draw the given number of indices uniformly in `[0, hi]`, with replacement. -/
def drawIndices {T : Type} (o : Oracle T) (hi : Nat) : Nat → List Nat × Oracle T
  | 0 => ([], o)
  | n+1 =>
      let p := drawInt o 0 hi
      let q := drawIndices p.2 hi n
      (p.1 :: q.1, q.2)

/-- Best-index scan of tournament selection (sga.hpp lines 528-538): keep the
first seen index whose score is strictly greater than the best so far. -/
def tournamentScan {T : Type} (st : Store T) : List Nat → Nat → Score → Nat
  | [], best, _ => best
  | i :: rest, best, bestSc =>
      if bestSc < scoreAt st i then tournamentScan st rest i (scoreAt st i)
      else tournamentScan st rest best bestSc

/-- Collection loop of stochastic universal sampling (sga.hpp lines 509-514):
collect the chromosomes at cumulative scores `pos, pos + spacing, ...` while
the position does not exceed the total score.  The C++ for-loop has no
structural bound (its guard never fails when the spacing is ≤ 0), hence the
fuel. -/
def susLoop {T : Type} (st : Store T) (spacing total : ℚ) : ℚ → Nat → Option (Population T)
  | _, 0 => none
  | pos, fuel+1 =>
      if pos ≤ total then
        match chromosomeByFitness? st pos, susLoop st spacing total (pos + spacing) fuel with
        | some c, some rest => some (c :: rest)
        | _, _ => none
      else some []

/-- Model of `select` (sga.hpp lines 484-547).  `none` models undefined
behaviour (an empty store reaching `lastElement`, or `tournament[0]` with a
tournament size of 0) or fuel exhaustion of the SUS collection loop. -/
def select {T : Type} (cfg : Config) (st : Store T) (o : Oracle T) (fuel : Nat) :
    Option (Population T × Oracle T) :=
  match cfg.selectionType with
  | .RouletteWheel =>
      let p := drawReal o 0 (totalScore st)
      match chromosomeByFitness? st p.1 with
      | some c => some ([c], p.2)
      | none => none
  | .StochasticUniversal =>
      let pk := drawInt o 1 (st.length / 10)
      let spacing := totalScore st / (pk.1 : ℚ)
      let pf := drawReal pk.2 0 spacing
      match susLoop st spacing (totalScore st) pf.1 fuel with
      | some sel => some (sel, pf.2)
      | none => none
  | .Tournament =>
      let pt := drawIndices o (st.length - 1) cfg.tournamentSize
      match pt.1 with
      | [] => none
      | i0 :: _ =>
          let bi := tournamentScan st pt.1 i0 (scoreAt st i0)
          match chromosomeAt? st bi with
          | some c => some ([c], pt.2)
          | none => none

/-! Crossover (sga.hpp lines 549-591). -/

/-- Gene-index selection loop of `cross` (sga.hpp lines 558-578): walk an
index from 0 towards the shorter length `m`, drawing the next boundary
uniformly in `[index, m]` and alternately marking the runs `[index, next)` as
exchanged / kept; the first run is an exchange run.  The C++ while-loop does
not progress when the draw returns the current index, hence the fuel. -/
def pickExchange {T : Type} (m : Nat) : Nat → Oracle T → Nat → Bool → Option (List Nat × Oracle T)
  | 0, _, _, _ => none
  | fuel+1, o, index, add =>
      if index < m then
        let p := drawInt o index m
        if add then
          match pickExchange m fuel p.2 p.1 false with
          | some q => some (List.range' index (p.1 - index) ++ q.1, q.2)
          | none => none
        else pickExchange m fuel p.2 p.1 true
      else some ([], o)

/-- Exchange loop of `cross` (sga.hpp lines 581-588): at each marked index,
the first result chromosome receives the second's gene and vice versa. -/
def swapGenes {T : Type} [Inhabited T] :
    List Nat → Chromosome T × Chromosome T → Chromosome T × Chromosome T
  | [], p => p
  | i :: rest, p =>
      swapGenes rest (p.1.set i (p.2.getD i default), p.2.set i (p.1.getD i default))

/-- Model of `cross` (sga.hpp lines 549-591) on a pair of chromosomes. -/
def cross {T : Type} [Inhabited T] (o : Oracle T) (c0 c1 : Chromosome T) (fuel : Nat) :
    Option (Chromosome T × Chromosome T × Oracle T) :=
  match pickExchange (min c0.length c1.length) fuel o 0 true with
  | some q =>
      let r := swapGenes q.1 (c0, c1)
      some (r.1, r.2, q.2)
  | none => none

/-! Mutation (sga.hpp lines 593-607). -/

/-- Iteration core of the replacement loop of `mutate` (sga.hpp lines
604-605): perform the given number of replacement steps, starting at index
`i`. -/
def replaceGenesAux {T : Type} [Inhabited T] : Nat → Nat → Oracle T → Chromosome T → Chromosome T × Oracle T
  | 0, _, o, c => (c, o)
  | n+1, i, o, c =>
      let p := takeGene o
      replaceGenesAux n (i+1) p.2 (c.set i p.1)

/-- Replacement loop of `mutate` (sga.hpp lines 604-605): replace the genes at
indices `[i, e)` with freshly generated genes — `e - i` steps from `i`. -/
def replaceGenes {T : Type} [Inhabited T] (i e : Nat) (o : Oracle T) (c : Chromosome T) :
    Chromosome T × Oracle T :=
  replaceGenesAux (e - i) i o c

/-- Model of `mutate` (sga.hpp lines 593-607): with probability
`_mutationProbability` (checked against one real draw over `[0, 1)`), draw a
start index in `[0, length-1]` and an end index in `[start, length]` and
replace the genes in between; otherwise leave the chromosome unchanged. -/
def mutate {T : Type} [Inhabited T] (cfg : Config) (o : Oracle T) (c : Chromosome T) :
    Chromosome T × Oracle T :=
  let pu := drawReal o 0 1
  if pu.1 ≤ cfg.mutationProbability then
    let pb := drawInt pu.2 0 (c.length - 1)
    let pe := drawInt pb.2 pb.1 c.length
    replaceGenes pb.1 pe.1 pe.2 c
  else (c, pu.2)

/-- Mutation pass of `evolve` (sga.hpp lines 426-429): mutate every chromosome
of the working population in order. -/
def mutateAll {T : Type} [Inhabited T] (cfg : Config) : Oracle T → Population T → Population T × Oracle T
  | o, [] => ([], o)
  | o, c :: rest =>
      let p := mutate cfg o c
      let q := mutateAll cfg p.2 rest
      (p.1 :: q.1, q.2)

/-! The evolution loop (sga.hpp lines 374-438) and the ending criteria
(sga.hpp lines 440-482). -/

/-- BestScore branch of `isEvolutionOver` (sga.hpp lines 448-477): append the
best score to `_lastScores`; with 10 or fewer entries, do not stop; otherwise
evict the oldest entry and stop exactly when no remaining entry exceeds the
(new) oldest one. -/
def bestScoreStep (buffer : List Score) (s : Score) : Bool × List Score :=
  if (buffer ++ [s]).length ≤ 10 then (false, buffer ++ [s])
  else ((buffer ++ [s]).tail.all (fun x => decide (x ≤ (buffer ++ [s]).tail.headD 0)),
        (buffer ++ [s]).tail)

/-- Model of `isEvolutionOver` (sga.hpp lines 440-482), returning the stop
flag and the updated `_lastScores` buffer.  `none` models the undefined
dereference of `lastElement()` on an empty store.  The NeverStop branch is
Modelled from the spec ("the engine loops until externally stopped; not a
computed criterion"): it never signals stop and leaves the buffer alone. -/
def isEvolutionOver {T : Type} (cfg : Config) (st : Store T) (buffer : List Score) :
    Option (Bool × List Score) :=
  match cfg.endCriterion with
  | .MaxScore =>
      match lastElement? st with
      | some lastE => some (decide (cfg.maxEndScore ≤ lastE.1), buffer)
      | none => none
  | .BestScore =>
      match lastElement? st with
      | some lastE => some (bestScoreStep buffer lastE.1)
      | none => none
  | .NeverStop => some (false, buffer)

/-- Selection-gathering loop of one generation (sga.hpp lines 409-414):
invoke `select` until at least two chromosomes have accumulated. -/
def gather {T : Type} (cfg : Config) (st : Store T) : Nat → Oracle T → Population T → Option (Population T × Oracle T)
  | 0, _, _ => none
  | fuel+1, o, acc =>
      if acc.length < 2 then
        match select cfg st o fuel with
        | some (tmp, o1) => gather cfg st fuel o1 (acc ++ tmp)
        | none => none
      else some (acc, o)

/-- Recombination loop of one generation (sga.hpp lines 417-422): cross the
selected chromosomes pairwise; with an odd selection the last individual is
ignored (`i < selection.size() / 2`). -/
def crossPairs {T : Type} [Inhabited T] (sel : Population T) (fuel : Nat) :
    Nat → Nat → Oracle T → Option (Population T × Oracle T)
  | _, 0, o => some ([], o)
  | i, n+1, o =>
      match cross o (sel.getD (2*i) []) (sel.getD (2*i+1) []) fuel with
      | some r =>
          match crossPairs sel fuel (i+1) n r.2.2 with
          | some q => some (r.1 :: r.2.1 :: q.1, q.2)
          | none => none
      | none => none

/-- Population-refill loop of one generation (sga.hpp lines 405-423): starting
from an empty working population, repeatedly gather a selection, cross it
pairwise and append the offspring, until the working population has reached
`_populationSize`. -/
def refill {T : Type} [Inhabited T] (cfg : Config) (st : Store T) : Nat → Oracle T → Population T → Option (Population T × Oracle T)
  | 0, _, _ => none
  | fuel+1, o, pop =>
      if pop.length < cfg.populationSize then
        match gather cfg st fuel o [] with
        | some (sel, o1) =>
            match crossPairs sel fuel 0 (sel.length / 2) o1 with
            | some (offspring, o2) => refill cfg st fuel o2 (pop ++ offspring)
            | none => none
        | none => none
      else some (pop, o)

/-- State carried across generations by `evolve`: the scored store
(`_population`), the BestScore buffer (`_lastScores`), the generation counter
and the run flag. -/
structure EngineState (T : Type) where
  store : Store T
  lastScores : List Score
  generation : Nat
  runFlag : Bool
deriving Repr

/-- Model of the `evolve` loop (sga.hpp lines 374-438).  `gfuel` bounds the
number of generations simulated; `ifuel` is handed to the inner selection /
crossover loops of each generation.  The second component is the sequence of
best-of-generation scores that the LOG call of line 390 reports, one entry
per scored generation, newest last; it is observational instrumentation and
does not influence control flow.  A `none` first component means the loop was
still running when the fuel ran out, an inner loop made no progress, or
undefined behaviour (empty store) was reached. -/
def evolveLoop {T : Type} [Inhabited T] (cfg : Config) (score : Chromosome T → Score) :
    Nat → Nat → Oracle T → Population T → EngineState T →
    Option (EngineState T × Oracle T) × List Score
  | 0, _, _, _, _ => (none, [])
  | gfuel+1, ifuel, o, pop, st =>
      if st.runFlag then
        let store := scorePop score pop
        match lastElement? store with
        | none => (none, [])
        | some lastE =>
            match isEvolutionOver cfg store st.lastScores with
            | none => (none, [lastE.1])
            | some (stop, buf) =>
                if stop then
                  (some ({ store := store, lastScores := buf,
                           generation := st.generation, runFlag := false }, o), [lastE.1])
                else
                  match refill cfg store ifuel o [] with
                  | none => (none, [lastE.1])
                  | some (pop1, o1) =>
                      let pm := mutateAll cfg o1 pop1
                      let r := evolveLoop cfg score gfuel ifuel pm.2 pm.1
                        { store := store, lastScores := buf,
                          generation := st.generation + 1, runFlag := st.runFlag }
                      (r.1, lastE.1 :: r.2)
      else (some ({ st with runFlag := false }, o), [])

/-! The engine object and `run` (sga.hpp lines 244-314). -/

/-- Data members of GeneticAlgorithm (sga.hpp lines 171-191), without the
stream handle of `_logStream` (the sink's identity plays no algorithmic
role). -/
structure Engine (T : Type) where
  populationSize : Nat
  endCriterion : EndingCriterion
  selectionType : SelectionType
  mutationProbability : ℚ
  maxEndScore : Score
  steadyGenerations : Nat
  tournamentSize : Nat
  minChromosomeSize : Nat
  maxChromosomeSize : Nat
  store : Store T
  lastScores : List Score
  runFlag : Bool
  generation : Nat
  logEnable : Bool
deriving Repr

/-- Configuration view of an engine. -/
def Engine.toConfig {T : Type} (e : Engine T) : Config :=
  { populationSize := e.populationSize, endCriterion := e.endCriterion,
    selectionType := e.selectionType, mutationProbability := e.mutationProbability,
    maxEndScore := e.maxEndScore, steadyGenerations := e.steadyGenerations,
    tournamentSize := e.tournamentSize, minChromosomeSize := e.minChromosomeSize,
    maxChromosomeSize := e.maxChromosomeSize }

/-- Loop-state view of an engine. -/
def Engine.toState {T : Type} (e : Engine T) : EngineState T :=
  { store := e.store, lastScores := e.lastScores,
    generation := e.generation, runFlag := e.runFlag }

/-- Model of the constructor (sga.hpp lines 244-260): the default parameters;
the containers start empty and logging is off.  `_maxEndScore`,
`_steadyGenerations` and `_generation` are left uninitialised by the C++
constructor and are modelled as 0 (no claim depends on their pre-run
values). -/
def initialEngine (T : Type) : Engine T :=
  { populationSize := 100, endCriterion := .BestScore,
    selectionType := .Tournament, mutationProbability := 1/100,
    maxEndScore := 0, steadyGenerations := 0, tournamentSize := 10,
    minChromosomeSize := 1, maxChromosomeSize := 100,
    store := [], lastScores := [], runFlag := false, generation := 0,
    logEnable := false }

/-- Gene-filling part of `randomChromosome` (sga.hpp line 620): `std::generate`
calls `randomGene()` once per slot, front to back. -/
def genChromosome {T : Type} [Inhabited T] : Nat → Oracle T → Chromosome T × Oracle T
  | 0, o => ([], o)
  | n+1, o =>
      let p := takeGene o
      let q := genChromosome n p.2
      (p.1 :: q.1, q.2)

/-- Model of `randomChromosome` (sga.hpp lines 613-623): draw a size uniformly
in `[_minChromosomeSize, _maxChromosomeSize]` and fill that many genes from
the user's generator. -/
def randomChromosome {T : Type} [Inhabited T] (minS maxS : Nat) (o : Oracle T) :
    Chromosome T × Oracle T :=
  let ps := drawInt o minS maxS
  genChromosome ps.1 ps.2

/-- Seeding loop of `run` (sga.hpp lines 285-291): build `_populationSize`
random chromosomes. -/
def seedPop {T : Type} [Inhabited T] (minS maxS : Nat) : Nat → Oracle T → Population T × Oracle T
  | 0, o => ([], o)
  | n+1, o =>
      let p := randomChromosome minS maxS o
      let q := seedPop minS maxS n p.2
      (p.1 :: q.1, q.2)

/-- Outcome of `run`.  `error` models the `std::runtime_error` throw and
carries the engine exactly as it is at the throw site.  `finished` is a
blocking run that returned; `stillRunning` a blocking run whose simulation
fuel ran out first; `detached` a non-blocking run at the moment `run`
returns, the detached evolution thread not yet having executed. -/
inductive RunResult (T : Type) where
  | error (e : Engine T)
  | finished (e : Engine T) (o : Oracle T) (trace : List Score)
  | stillRunning (trace : List Score)
  | detached (e : Engine T) (o : Oracle T)

/-- Model of `run` (sga.hpp lines 266-314).  The logging configuration is
updated first (lines 270-271); then the tournament-size validation (lines
274-277) may throw; only past it are `_lastScores`, `_run` and `_generation`
reset, the initial population seeded, and the evolution started (on the
caller's thread when blocking, on a detached thread otherwise). -/
def run {T : Type} [Inhabited T] (e : Engine T) (score : Chromosome T → Score)
    (blocking enableLogging : Bool) (o : Oracle T) (gfuel ifuel : Nat) : RunResult T :=
  let e1 := { e with logEnable := enableLogging }
  if e1.selectionType = .Tournament ∧ e1.populationSize < e1.tournamentSize then
    .error e1
  else
    let e2 := { e1 with lastScores := [], runFlag := true, generation := 0 }
    let ps := seedPop e2.minChromosomeSize e2.maxChromosomeSize e2.populationSize o
    if blocking then
      match evolveLoop e2.toConfig score gfuel ifuel ps.2 ps.1 e2.toState with
      | (some (st1, o1), trace) =>
          .finished { e2 with store := st1.store, lastScores := st1.lastScores,
                              generation := st1.generation, runFlag := st1.runFlag,
                              logEnable := false } o1 trace
      | (none, trace) => .stillRunning trace
    else .detached e2 ps.2

/-! Facts about totalScore and the fitness walk. -/

theorem scoreFoldl_eq {T : Type} (st : Store T) (a : ℚ) :
    st.foldl (fun acc e => acc + e.1) a = a + (st.map Prod.fst).sum := by
  induction st generalizing a with
  | nil => simp
  | cons e rest ih => simp [ih, add_assoc]

theorem totalScore_eq_sum {T : Type} (st : Store T) :
    totalScore st = (st.map Prod.fst).sum := by
  simp [totalScore, scoreFoldl_eq]

/-- When every score is non-negative and the requested fitness exceeds the
cumulative score that the remaining walk can reach, the walk of
`chromosome(Score)` falls through to its `lastElement` fallback. -/
theorem chromosomeByFitnessAux_fallback {T : Type} (full : Store T) (fitness : Score) :
    ∀ (rest : Store T) (cum : ℚ), (∀ e ∈ rest, 0 ≤ e.1) →
      cum + (rest.map Prod.fst).sum < fitness →
      chromosomeByFitnessAux full fitness rest cum = best? full := by
  intro rest
  induction rest with
  | nil => intro cum _ _; rfl
  | cons e tl ih =>
      intro cum hnn hlt
      have hsum : 0 ≤ (tl.map Prod.fst).sum := by
        refine List.sum_nonneg ?_
        intro x hx
        rcases List.mem_map.mp hx with ⟨y, hy, rfl⟩
        exact hnn y (by simp [hy])
      simp only [List.map_cons, List.sum_cons] at hlt
      have hno : ¬ fitness ≤ cum + e.1 := by
        push_neg
        calc cum + e.1 ≤ cum + e.1 + (tl.map Prod.fst).sum := by linarith
        _ = cum + (e.1 + (tl.map Prod.fst).sum) := by ring
        _ < fitness := hlt
      rw [chromosomeByFitnessAux, if_neg hno]
      exact ih (cum + e.1) (fun x hx => hnn x (by simp [hx])) (by linarith)

/-- C10: `lastElement` (and hence `best`) is only defined on a non-empty
Population Store; a freshly constructed engine has an empty store, and a
non-blocking `run` returns before the background loop has scored anything, so
its store is still empty at that point; the out-of-range fallbacks of
`chromosome(unsigned)` and `chromosome(Score)` likewise resolve to
`lastElement` and inherit the same non-emptiness precondition. -/
theorem lastElement_requires_nonempty :
    (∀ (T : Type) (st : Store T), lastElement? st = none ↔ st = []) ∧
    (∀ (T : Type), (initialEngine T).store = [] ∧ best? (initialEngine T).store = none) ∧
    (∀ (T : Type) (st : Store T) (index : Nat), st.length ≤ index →
      chromosomeAt? st index = best? st) ∧
    (∀ (T : Type) (st : Store T) (fitness : Score), (∀ e ∈ st, 0 ≤ e.1) →
      totalScore st < fitness → chromosomeByFitness? st fitness = best? st) ∧
    (∀ (T : Type), ∀ _ : Inhabited T, ∀ (score : Chromosome T → Score)
      (el : Bool) (o : Oracle T) (g i : Nat),
      ∃ e2 o2, run (initialEngine T) score false el o g i = RunResult.detached e2 o2 ∧
        e2.store = [] ∧ best? e2.store = none) := by
  refine ⟨?_, ?_, ?_, ?_, ?_⟩
  · intro T st
    simp [lastElement?]
  · intro T
    constructor
    · rfl
    · rfl
  · intro T st index h
    simp [chromosomeAt?, h]
  · intro T st fitness hnn hlt
    rw [chromosomeByFitness?]
    refine chromosomeByFitnessAux_fallback st fitness st 0 hnn ?_
    rw [← totalScore_eq_sum]
    simpa using hlt
  · intro T _ score el o g i
    refine ⟨({ initialEngine T with logEnable := el, lastScores := ([] : List Score), runFlag := true, generation := 0 } : Engine T), (seedPop 1 100 100 o).2, ?_, rfl, rfl⟩
    rw [run]
    norm_num [initialEngine]

/-- Witness: the C10 theorem applied at concrete inputs — the out-of-range
fallback on a singleton store, the fitness-walk fallback past the total
score, and the empty-store characterisation. -/
theorem lastElement_requires_nonempty_witness :
    chromosomeAt? [((1:ℚ), ([2] : Chromosome ℕ))] 5 = best? [((1:ℚ), ([2] : Chromosome ℕ))] ∧
    chromosomeByFitness? [((1:ℚ), ([2] : Chromosome ℕ))] 7 = best? [((1:ℚ), ([2] : Chromosome ℕ))] ∧
    (lastElement? ([] : Store ℕ) = none ↔ ([] : Store ℕ) = []) := by
  refine ⟨?_, ?_, ?_⟩
  · exact lastElement_requires_nonempty.2.2.1 ℕ _ 5 (by norm_num)
  · refine lastElement_requires_nonempty.2.2.2.1 ℕ _ 7 ?_ ?_
    · intro e he
      simp only [List.mem_singleton] at he
      norm_num [he]
    · norm_num [totalScore]
  · exact lastElement_requires_nonempty.1 ℕ []

/-! The BestScore ending criterion, iterated over a run. -/

/-- Stop flags produced by iterating the BestScore check over a sequence of
best-of-generation scores, starting from the given `_lastScores` buffer. -/
def bestScoreFlags (buffer : List Score) : List Score → List Bool
  | [] => []
  | s :: rest => (bestScoreStep buffer s).1 :: bestScoreFlags (bestScoreStep buffer s).2 rest

/-- Buffer contents after iterating the BestScore check over a sequence of
best-of-generation scores. -/
def bestScoreBuffer (buffer : List Score) : List Score → List Score
  | [] => buffer
  | s :: rest => bestScoreBuffer (bestScoreStep buffer s).2 rest

theorem bestScoreFlags_append (buffer xs ys : List Score) :
    bestScoreFlags buffer (xs ++ ys) =
      bestScoreFlags buffer xs ++ bestScoreFlags (bestScoreBuffer buffer xs) ys := by
  induction xs generalizing buffer with
  | nil => simp [bestScoreFlags, bestScoreBuffer]
  | cons s rest ih => simp [bestScoreFlags, bestScoreBuffer, ih]

theorem length_bestScoreFlags (buffer scores : List Score) :
    (bestScoreFlags buffer scores).length = scores.length := by
  induction scores generalizing buffer with
  | nil => rfl
  | cons s rest ih => simp [bestScoreFlags, ih]

theorem bestScoreStep_of_short (buffer : List Score) (s : Score)
    (h : buffer.length + 1 ≤ 10) : bestScoreStep buffer s = (false, buffer ++ [s]) := by
  unfold bestScoreStep
  have hl : (buffer ++ [s]).length ≤ 10 := by simpa using h
  rw [if_pos hl]

/-- A strictly increasing window never signals stop. -/
theorem bestScoreStep_of_chain_false (buffer : List Score) (s : Score)
    (h : (buffer ++ [s]).Chain' (· < ·)) : (bestScoreStep buffer s).1 = false := by
  unfold bestScoreStep
  split
  · rfl
  · rename_i hlen
    simp only [List.length_append, List.length_singleton] at hlen
    have htail : (buffer ++ [s]).tail.Chain' (· < ·) := h.tail
    have htl : 2 ≤ (buffer ++ [s]).tail.length := by
      simp only [List.length_tail, List.length_append, List.length_singleton]
      omega
    match hm : (buffer ++ [s]).tail with
    | [] => rw [hm] at htl; simp at htl
    | [x] => rw [hm] at htl; simp at htl
    | x :: y :: t =>
        rw [hm] at htail
        have hxy : x < y := (List.chain'_cons.mp htail).1
        simp only [List.all_eq_false]
        exact ⟨y, by simp, by simp [List.headD]; linarith⟩

theorem bestScoreFlags_of_short (buffer scores : List Score)
    (h : buffer.length + scores.length ≤ 10) :
    bestScoreFlags buffer scores = List.replicate scores.length false := by
  induction scores generalizing buffer with
  | nil => rfl
  | cons s rest ih =>
      rw [bestScoreFlags, bestScoreStep_of_short buffer s (by simp at h; omega)]
      have := ih (buffer ++ [s]) (by simp at h ⊢; omega)
      simp [this, List.replicate_succ]

theorem bestScoreFlags_of_chain (buffer scores : List Score)
    (h : (buffer ++ scores).Chain' (· < ·)) :
    ∀ b ∈ bestScoreFlags buffer scores, b = false := by
  induction scores generalizing buffer with
  | nil => simp [bestScoreFlags]
  | cons s rest ih =>
      have hassoc : buffer ++ s :: rest = (buffer ++ [s]) ++ rest := by simp
      rw [hassoc] at h
      have hchain1 : (buffer ++ [s]).Chain' (· < ·) := (List.chain'_append.mp h).1
      intro b hb
      rw [bestScoreFlags] at hb
      rcases List.mem_cons.mp hb with rfl | hb
      · exact bestScoreStep_of_chain_false buffer s hchain1
      · refine ih (bestScoreStep buffer s).2 ?_ b hb
        have hbuf2 : (bestScoreStep buffer s).2 = buffer ++ [s] ∨
            (bestScoreStep buffer s).2 = (buffer ++ [s]).tail := by
          unfold bestScoreStep
          split
          · exact Or.inl rfl
          · exact Or.inr rfl
        rcases hbuf2 with heq | heq
        · rw [heq]; exact h
        · rw [heq]
          have hne : buffer ++ [s] ≠ [] := by simp
          match hm : buffer ++ [s] with
          | [] => exact absurd hm hne
          | x :: l =>
              rw [hm] at h
              have : (x :: (l ++ rest)).Chain' (· < ·) := by simpa using h
              simpa using this.tail

theorem bestScoreStep_replicate_ten (s : Score) :
    bestScoreStep (List.replicate 10 s) s = (true, List.replicate 10 s) := by
  unfold bestScoreStep
  have hrep : List.replicate 10 s ++ [s] = List.replicate 11 s :=
    (List.replicate_succ' 10 s).symm
  rw [hrep]
  have hlen : ¬ (List.replicate 11 s).length ≤ 10 := by simp
  rw [if_neg hlen]
  have htail : (List.replicate 11 s).tail = List.replicate 10 s := by
    simp [List.replicate_succ]
  rw [htail]
  have hall : (List.replicate 10 s).all
      (fun x => decide (x ≤ (List.replicate 10 s).headD 0)) = true := by
    simp only [List.all_eq_true, decide_eq_true_eq]
    intro x hx
    rw [List.eq_of_mem_replicate hx]
    simp [List.headD, List.replicate_succ]
  rw [hall]

theorem bestScoreFlags_const (s : Score) : ∀ (j k : Nat), j + k = 11 → 1 ≤ j → k ≤ 10 →
    bestScoreFlags (List.replicate k s) (List.replicate j s) =
      List.replicate (j - 1) false ++ [true] := by
  intro j
  induction j with
  | zero => omega
  | succ n ih =>
      intro k hk h1 hk10
      cases Nat.eq_zero_or_pos n with
      | inl hn0 =>
          subst hn0
          have hk10' : k = 10 := by omega
          subst hk10'
          have h1s : List.replicate 1 s = [s] := rfl
          rw [h1s, bestScoreFlags, bestScoreStep_replicate_ten]
          simp [bestScoreFlags]
      | inr hn1 =>
          have hkk : k + 1 ≤ 10 := by omega
          have hstep : bestScoreStep (List.replicate k s) s = (false, List.replicate (k+1) s) := by
            rw [bestScoreStep_of_short _ _ (by simp; omega)]
            rw [List.replicate_succ' k s]
          rw [List.replicate_succ, bestScoreFlags, hstep]
          have := ih (k+1) (by omega) (by omega) (by omega)
          simp only [this]
          have hrw : List.replicate (n + 1 - 1) (false : Bool) =
              false :: List.replicate (n - 1) false := by
            have : n + 1 - 1 = (n - 1) + 1 := by omega
            rw [this, List.replicate_succ]
          rw [hrw]
          rfl

/-- C4: under BestScore, the per-generation check appends the best score to
the history buffer and stops exactly when the buffer exceeds 10 entries and,
after evicting the oldest entry, no remaining entry exceeds the new oldest
one; consequently the first 10 checks of a run never stop, a strictly
increasing best-score sequence never stops the run, and a constant sequence
stops at the 11th check. -/
theorem bestScore_criterion_spec :
    (∀ (T : Type) (cfg : Config) (st : Store T) (buffer : List Score)
      (b : Score × Chromosome T),
      cfg.endCriterion = EndingCriterion.BestScore → lastElement? st = some b →
      isEvolutionOver cfg st buffer = some (bestScoreStep buffer b.1)) ∧
    (∀ (buffer : List Score) (s : Score),
      ((bestScoreStep buffer s).1 = true ↔
        10 < (buffer ++ [s]).length ∧
          ∀ x ∈ (buffer ++ [s]).tail, x ≤ (buffer ++ [s]).tail.headD 0) ∧
      (bestScoreStep buffer s).2 =
        if (buffer ++ [s]).length ≤ 10 then buffer ++ [s] else (buffer ++ [s]).tail) ∧
    (∀ scores : List Score, scores.length ≤ 10 →
      ∀ b ∈ bestScoreFlags [] scores, b = false) ∧
    (∀ scores : List Score, scores.Chain' (· < ·) →
      ∀ b ∈ bestScoreFlags [] scores, b = false) ∧
    (∀ (s : Score) (n : Nat),
      (bestScoreFlags [] (List.replicate (11 + n) s))[10]? = some true) := by
  refine ⟨?_, ?_, ?_, ?_, ?_⟩
  · intro T cfg st buffer b hcrit hlast
    rw [isEvolutionOver, hcrit, hlast]
  · intro buffer s
    constructor
    · unfold bestScoreStep
      split
      · rename_i hle
        simp only [List.length_append, List.length_singleton] at hle
        simp only [List.length_append, List.length_singleton]
        constructor
        · intro hfalse; exact absurd hfalse (by simp)
        · intro hp; omega
      · rename_i hgt
        simp only [List.length_append, List.length_singleton] at hgt
        simp only [List.length_append, List.length_singleton, List.all_eq_true,
          decide_eq_true_eq]
        constructor
        · intro hall; exact ⟨by omega, hall⟩
        · intro hp; exact hp.2
    · unfold bestScoreStep
      split
      · rfl
      · rfl
  · intro scores hlen
    have h := bestScoreFlags_of_short [] scores (by simpa using hlen)
    intro b hb
    rw [h] at hb
    exact List.eq_of_mem_replicate hb
  · intro scores hchain
    exact bestScoreFlags_of_chain [] scores (by simpa using hchain)
  · intro s n
    rw [List.replicate_add, bestScoreFlags_append]
    have hflags : bestScoreFlags [] (List.replicate 11 s) =
        List.replicate 10 false ++ [true] := by
      have h := bestScoreFlags_const s 11 0 (by omega) (by omega) (by omega)
      simpa using h
    have hlen1 : 10 < (bestScoreFlags [] (List.replicate 11 s)).length := by
      rw [length_bestScoreFlags]; simp
    rw [List.getElem?_append_left hlen1, hflags]
    rw [List.getElem?_append_right (by simp)]
    simp

/-- Witness: the C4 theorem applied at concrete inputs — the check on a
singleton store with an empty buffer, and a three-generation run whose flags
are all false. -/
theorem bestScore_criterion_spec_witness :
    isEvolutionOver (⟨5, EndingCriterion.BestScore, SelectionType.Tournament,
        1/100, 0, 10, 1, 1, 1⟩ : Config)
      [((2:ℚ), ([0] : Chromosome ℕ))] [] = some (bestScoreStep [] 2) ∧
    (∀ b ∈ bestScoreFlags [] [(1:ℚ), 2, 3], b = false) := by
  constructor
  · exact bestScore_criterion_spec.1 ℕ _ [((2:ℚ), [0])] [] ((2:ℚ), [0]) rfl (by
      simp [lastElement?])
  · exact bestScore_criterion_spec.2.2.1 [(1:ℚ), 2, 3] (by norm_num)

/-! The NeverStop criterion and the MaxScore criterion over a run. -/

/-- C3: with the NeverStop criterion configured, the ending-criterion check
never signals stop; the evolution loop therefore never terminates of its own
accord (any amount of generation fuel is exhausted with the loop still
running), and only a cleared run flag — what `stop()` produces — makes the
loop exit, at the next generation boundary. -/
theorem neverStop_runs_until_stopped :
    (∀ (T : Type) (cfg : Config) (st : Store T) (buffer : List Score),
      cfg.endCriterion = EndingCriterion.NeverStop →
      isEvolutionOver cfg st buffer = some (false, buffer)) ∧
    (∀ (T : Type), ∀ _ : Inhabited T, ∀ (cfg : Config) (score : Chromosome T → Score)
      (gfuel ifuel : Nat) (o : Oracle T) (pop : Population T) (st : EngineState T),
      cfg.endCriterion = EndingCriterion.NeverStop → st.runFlag = true →
      (evolveLoop cfg score gfuel ifuel o pop st).1 = none) ∧
    (∀ (T : Type), ∀ _ : Inhabited T, ∀ (cfg : Config) (score : Chromosome T → Score)
      (gfuel ifuel : Nat) (o : Oracle T) (pop : Population T) (st : EngineState T),
      st.runFlag = false →
      evolveLoop cfg score (gfuel+1) ifuel o pop st =
        (some ({ st with runFlag := false }, o), [])) := by
  refine ⟨?_, ?_, ?_⟩
  · intro T cfg st buffer hcrit
    simp [isEvolutionOver, hcrit]
  · intro T _ cfg score gfuel
    induction gfuel with
    | zero => intro ifuel o pop st hcrit hrun; rfl
    | succ n ih =>
        intro ifuel o pop st hcrit hrun
        rw [evolveLoop, hrun]
        simp only [if_true]
        cases hl : lastElement? (scorePop score pop) with
        | none => rfl
        | some lastE =>
            have hiso : isEvolutionOver cfg (scorePop score pop) st.lastScores =
                some (false, st.lastScores) := by simp [isEvolutionOver, hcrit]
            rw [hiso]
            simp only [Bool.false_eq_true, if_false]
            cases hr : refill cfg (scorePop score pop) ifuel o [] with
            | none => rfl
            | some pr => exact ih ifuel _ _ _ hcrit rfl
  · intro T _ cfg score gfuel ifuel o pop st hrun
    rw [evolveLoop, hrun]
    simp

/-- Witness: the C3 theorem applied at a concrete NeverStop configuration —
the check on a singleton store, three generations of fuel exhausted with the
loop still running, and an immediate exit with the run flag cleared. -/
theorem neverStop_runs_until_stopped_witness :
    isEvolutionOver (⟨1, EndingCriterion.NeverStop, SelectionType.Tournament,
        1/100, 0, 10, 1, 1, 1⟩ : Config) [((4:ℚ), ([7] : Chromosome ℕ))] [] =
      some (false, []) ∧
    (evolveLoop (⟨1, EndingCriterion.NeverStop, SelectionType.Tournament,
        1/100, 0, 10, 1, 1, 1⟩ : Config) (fun _ => (0:ℚ)) 3 4 (⟨[], [], []⟩ : Oracle ℕ)
      [[7]] ⟨[], [], 0, true⟩).1 = none ∧
    evolveLoop (⟨1, EndingCriterion.NeverStop, SelectionType.Tournament,
        1/100, 0, 10, 1, 1, 1⟩ : Config) (fun _ => (0:ℚ)) 5 4 (⟨[], [], []⟩ : Oracle ℕ)
      [[7]] ⟨[], [], 0, false⟩ =
      (some (⟨[], [], 0, false⟩, ⟨[], [], []⟩), []) := by
  refine ⟨?_, ?_, ?_⟩
  · exact neverStop_runs_until_stopped.1 ℕ _ [((4:ℚ), [7])] [] rfl
  · exact neverStop_runs_until_stopped.2.1 ℕ inferInstance _ (fun _ => (0:ℚ)) 3 4
      ⟨[], [], []⟩ [[7]] ⟨[], [], 0, true⟩ rfl rfl
  · exact neverStop_runs_until_stopped.2.2 ℕ inferInstance _ (fun _ => (0:ℚ)) 4 4
      ⟨[], [], []⟩ [[7]] ⟨[], [], 0, false⟩ rfl

/-- Prepending a below-threshold entry to a non-empty trace keeps its last
element and keeps every non-last element below the threshold. -/
theorem cons_getLast_dropLast (a t θ : Score) (l : List Score)
    (h1 : l.getLast? = some t) (h2 : ∀ x ∈ l.dropLast, x < θ) (ha : a < θ) :
    (a :: l).getLast? = some t ∧ ∀ x ∈ (a :: l).dropLast, x < θ := by
  cases l with
  | nil => simp at h1
  | cons y ys =>
      constructor
      · simpa using h1
      · intro x hx
        rw [List.dropLast_cons_of_ne_nil (by simp)] at hx
        rcases List.mem_cons.mp hx with rfl | hx2
        · exact ha
        · exact h2 x hx2

/-- C5: under MaxScore the per-generation check signals stop exactly when the
maximum score of the freshly scored Population Store reaches the configured
threshold, and a completed run stops at the first generation reaching it: in
the logged best-score trace, every entry before the last is strictly below
the threshold and the last entry is at or above it. -/
theorem maxScore_stops_at_first_reaching :
    (∀ (T : Type) (cfg : Config) (score : Chromosome T → Score) (pop : Population T)
      (buffer : List Score), cfg.endCriterion = EndingCriterion.MaxScore → pop ≠ [] →
      ∃ c ∈ pop, (∀ d ∈ pop, score d ≤ score c) ∧
        isEvolutionOver cfg (scorePop score pop) buffer =
          some (decide (cfg.maxEndScore ≤ score c), buffer)) ∧
    (∀ (T : Type), ∀ _ : Inhabited T, ∀ (cfg : Config) (score : Chromosome T → Score)
      (gfuel ifuel : Nat) (o : Oracle T) (pop : Population T) (st : EngineState T)
      (res : EngineState T × Oracle T) (trace : List Score),
      cfg.endCriterion = EndingCriterion.MaxScore → st.runFlag = true →
      evolveLoop cfg score gfuel ifuel o pop st = (some res, trace) →
      ∃ t, trace.getLast? = some t ∧ cfg.maxEndScore ≤ t ∧
        ∀ x ∈ trace.dropLast, x < cfg.maxEndScore) := by
  constructor
  · intro T cfg score pop buffer hcrit hne
    rcases lastElement_scorePop_max score pop hne with ⟨c, hc, hlast, hmax⟩
    refine ⟨c, hc, hmax, ?_⟩
    rw [isEvolutionOver, hcrit, hlast]
  · intro T _ cfg score gfuel
    induction gfuel with
    | zero =>
        intro ifuel o pop st res trace hcrit hrun heq
        exact absurd (congrArg Prod.fst heq) (by simp [evolveLoop])
    | succ n ih =>
        intro ifuel o pop st res trace hcrit hrun heq
        rw [evolveLoop, hrun] at heq
        simp only [if_true] at heq
        cases hl : lastElement? (scorePop score pop) with
        | none => rw [hl] at heq; exact absurd (congrArg Prod.fst heq) (by simp)
        | some lastE =>
            rw [hl] at heq
            have hiso : isEvolutionOver cfg (scorePop score pop) st.lastScores =
                some (decide (cfg.maxEndScore ≤ lastE.1), st.lastScores) := by
              rw [isEvolutionOver, hcrit, hl]
            rw [hiso] at heq
            by_cases hth : cfg.maxEndScore ≤ lastE.1
            · rw [decide_eq_true hth] at heq
              simp only [if_true] at heq
              have htr : trace = [lastE.1] := (congrArg Prod.snd heq).symm
              refine ⟨lastE.1, ?_, hth, ?_⟩
              · rw [htr]; rfl
              · rw [htr]; simp
            · rw [decide_eq_false hth] at heq
              simp only [Bool.false_eq_true, if_false] at heq
              cases hr : refill cfg (scorePop score pop) ifuel o [] with
              | none => rw [hr] at heq; exact absurd (congrArg Prod.fst heq) (by simp)
              | some pr =>
                  obtain ⟨pop1, o1⟩ := pr
                  rw [hr] at heq
                  have h1 : (evolveLoop cfg score n ifuel (mutateAll cfg o1 pop1).2
                      (mutateAll cfg o1 pop1).1
                      { store := scorePop score pop, lastScores := st.lastScores,
                        generation := st.generation + 1, runFlag := true }).1 =
                      some res := congrArg Prod.fst heq
                  have h2 : lastE.1 :: (evolveLoop cfg score n ifuel (mutateAll cfg o1 pop1).2
                      (mutateAll cfg o1 pop1).1
                      { store := scorePop score pop, lastScores := st.lastScores,
                        generation := st.generation + 1, runFlag := true }).2 =
                      trace := congrArg Prod.snd heq
                  rcases ih ifuel _ _ _ res _ hcrit rfl (Prod.ext h1 rfl) with
                    ⟨t, htl, hthr, hdrop⟩
                  have hcomb := cons_getLast_dropLast lastE.1 t cfg.maxEndScore _ htl hdrop
                    (lt_of_not_le hth)
                  refine ⟨t, ?_, hthr, ?_⟩
                  · rw [← h2]; exact hcomb.1
                  · rw [← h2]; exact hcomb.2

/-- Witness: the C5 theorem applied at a concrete single-generation run —
population of one chromosome of score 5, threshold 3 — which stops at its
first generation. -/
theorem maxScore_stops_at_first_reaching_witness :
    (∃ c ∈ ([[0]] : Population ℕ),
      (∀ d ∈ ([[0]] : Population ℕ), (5:ℚ) ≤ (5:ℚ)) ∧
      isEvolutionOver (⟨1, EndingCriterion.MaxScore, SelectionType.Tournament,
          1/100, 3, 10, 1, 1, 1⟩ : Config)
        (scorePop (fun _ => (5:ℚ)) [[0]]) [] = some (decide ((3:ℚ) ≤ 5), [])) ∧
    (∃ t, ([(5:ℚ)] : List Score).getLast? = some t ∧ (3:ℚ) ≤ t ∧
      ∀ x ∈ ([(5:ℚ)] : List Score).dropLast, x < 3) := by
  constructor
  · exact maxScore_stops_at_first_reaching.1 ℕ _ (fun _ => (5:ℚ)) [[0]] [] rfl (by simp)
  · exact maxScore_stops_at_first_reaching.2 ℕ inferInstance
      ⟨1, EndingCriterion.MaxScore, SelectionType.Tournament, 1/100, 3, 10, 1, 1, 1⟩
      (fun _ => (5:ℚ)) 3 20
      ⟨[], [], []⟩ [[0]] ⟨[], [], 0, true⟩
      (⟨[((5:ℚ), [0])], [], 0, false⟩, ⟨[], [], []⟩) [(5:ℚ)] rfl rfl
      (by norm_num [evolveLoop, scorePop, storeInsert, lastElement?, isEvolutionOver,
        bestScoreStep])

/-! Monotonicity of the recorded best score across generations. -/

/-- C1 (amended): after each scored generation, the best score recorded in
the Population Store equals the maximum score over that generation's
population; across successive generations the recorded best is not monotone —
there are configurations and random draws whose logged best-score trace
strictly decreases, because the engine carries no elite into the next
generation. -/
theorem bestRecorded_is_max_not_monotone :
    (∀ (T : Type) (score : Chromosome T → Score) (pop : Population T), pop ≠ [] →
      ∃ c ∈ pop, lastElement? (scorePop score pop) = some (score c, c) ∧
        ∀ d ∈ pop, score d ≤ score c) ∧
    (∃ (cfg : Config) (score : Chromosome ℕ → Score) (gfuel ifuel : Nat) (o : Oracle ℕ)
      (pop : Population ℕ) (st : EngineState ℕ) (s0 s1 : Score),
      (evolveLoop cfg score gfuel ifuel o pop st).2 = [s0, s1] ∧ s1 < s0) := by
  constructor
  · intro T score pop h
    exact lastElement_scorePop_max score pop h
  · refine ⟨⟨2, EndingCriterion.MaxScore, SelectionType.Tournament, 1/100, 1000, 10,
      1, 1, 1⟩, fun c => ((c.headD 0 : Nat) : ℚ), 2, 20, ⟨[0,0,1,0,0,0,0], [], []⟩,
      [[0],[1]], ⟨[], [], 0, true⟩, 1, 0, ?_, by norm_num⟩
    norm_num [evolveLoop, scorePop, storeInsert, lastElement?, isEvolutionOver, refill,
      gather, select, drawIndices, tournamentScan, scoreAt, chromosomeAt?, best?, cross,
      pickExchange, crossPairs, swapGenes, drawInt, drawReal, takeInt, takeReal, fract,
      mutateAll, mutate, replaceGenes, replaceGenesAux, takeGene, bestScoreStep,
      Rat.floor_def']

/-- Witness: the C1 amended theorem applied at a concrete one-chromosome
population. -/
theorem bestRecorded_is_max_not_monotone_witness :
    ∃ c ∈ ([[3]] : Population ℕ),
      lastElement? (scorePop (fun x => ((x.headD 0 : Nat) : ℚ)) [[3]]) =
        some (((c.headD 0 : Nat) : ℚ), c) ∧
      ∀ d ∈ ([[3]] : Population ℕ), ((d.headD 0 : Nat) : ℚ) ≤ ((c.headD 0 : Nat) : ℚ) :=
  bestRecorded_is_max_not_monotone.1 ℕ (fun x => ((x.headD 0 : Nat) : ℚ)) [[3]] (by simp)

/-- C1 counterexample: a concrete two-generation run — population size 2,
tournament selection of size 1, chromosomes `[0]` and `[1]` scored by their
head gene — whose random draws select the worst individual twice, so the
working population degenerates to two copies of `[0]`: generation 0 records
best score 1, generation 1 records best score 0 < 1.  The recorded best of a
later completed generation is strictly below that of the earlier one, so the
best score is not monotonically non-decreasing for every configuration and
random draw. -/
theorem best_monotone_counterexample :
    (evolveLoop (⟨2, EndingCriterion.MaxScore, SelectionType.Tournament, 1/100, 1000, 10,
        1, 1, 1⟩ : Config) (fun c => ((c.headD 0 : Nat) : ℚ)) 2 20
      (⟨[0,0,1,0,0,0,0], [], []⟩ : Oracle ℕ) [[0],[1]] ⟨[], [], 0, true⟩).2 = [1, 0] ∧
    ¬ ((1:ℚ) ≤ (0:ℚ)) := by
  constructor
  · norm_num [evolveLoop, scorePop, storeInsert, lastElement?, isEvolutionOver, refill,
      gather, select, drawIndices, tournamentScan, scoreAt, chromosomeAt?, best?, cross,
      pickExchange, crossPairs, swapGenes, drawInt, drawReal, takeInt, takeReal, fract,
      mutateAll, mutate, replaceGenes, replaceGenesAux, takeGene, bestScoreStep,
      Rat.floor_def']
  · norm_num

/-! The mutation operator. -/

/-- Gene that the `randomGene()` stream will yield at its k-th future call. -/
def geneAt {T : Type} [Inhabited T] (o : Oracle T) (k : Nat) : T :=
  (o.genes.get? k).getD default

theorem takeGene_fst {T : Type} [Inhabited T] (o : Oracle T) : (takeGene o).1 = geneAt o 0 := by
  cases o with
  | mk ints reals genes => cases genes <;> simp [takeGene, geneAt]

theorem geneAt_takeGene {T : Type} [Inhabited T] (o : Oracle T) (k : Nat) :
    geneAt (takeGene o).2 k = geneAt o (k+1) := by
  cases o with
  | mk ints reals genes => cases genes <;> simp [takeGene, geneAt]

theorem genes_takeInt {T : Type} (o : Oracle T) : (takeInt o).2.genes = o.genes := by
  cases o with
  | mk ints reals genes => cases ints <;> rfl

theorem genes_takeReal {T : Type} (o : Oracle T) : (takeReal o).2.genes = o.genes := by
  cases o with
  | mk ints reals genes => cases reals <;> rfl

theorem genes_drawInt {T : Type} (o : Oracle T) (lo hi : Nat) :
    (drawInt o lo hi).2.genes = o.genes := genes_takeInt o

theorem genes_drawReal {T : Type} (o : Oracle T) (lo hi : ℚ) :
    (drawReal o lo hi).2.genes = o.genes := genes_takeReal o

theorem geneAt_congr {T : Type} [Inhabited T] (o o2 : Oracle T) (h : o2.genes = o.genes)
    (k : Nat) : geneAt o2 k = geneAt o k := by
  simp [geneAt, h]

/-- Bounds of the integer draw: with an ordered range, the drawn value lies in
`[lo, hi]` (and every such value is realised by some raw entropy value). -/
theorem drawInt_bounds {T : Type} (o : Oracle T) (lo hi : Nat) (h : lo ≤ hi) :
    lo ≤ (drawInt o lo hi).1 ∧ (drawInt o lo hi).1 ≤ hi := by
  simp only [drawInt]
  have hm : (takeInt o).1 % (hi + 1 - lo) < hi + 1 - lo := Nat.mod_lt _ (by omega)
  omega

theorem replaceGenesAux_succ {T : Type} [Inhabited T] (m i : Nat) (o : Oracle T)
    (c : Chromosome T) :
    replaceGenesAux (m+1) i o c =
      replaceGenesAux m (i+1) (takeGene o).2 (c.set i (takeGene o).1) := rfl

/-- The replacement loop preserves the length, leaves every index outside
`[i, i+n)` untouched, and writes the successive genes of the stream at the
indices of `[i, i+n)`. -/
theorem replaceGenesAux_spec {T : Type} [Inhabited T] :
    ∀ (n i : Nat) (o : Oracle T) (ch : Chromosome T),
      (replaceGenesAux n i o ch).1.length = ch.length ∧
      (∀ j, j < i ∨ i + n ≤ j → (replaceGenesAux n i o ch).1[j]? = ch[j]?) ∧
      (∀ j, i ≤ j → j < i + n → j < ch.length →
        (replaceGenesAux n i o ch).1[j]? = some (geneAt o (j - i))) := by
  intro n
  induction n with
  | zero =>
      intro i o ch
      exact ⟨rfl, fun j _ => rfl, fun j h1 h2 _ => by omega⟩
  | succ m ih =>
      intro i o ch
      obtain ⟨hlen, hframe, hrepl⟩ := ih (i+1) (takeGene o).2 (ch.set i (takeGene o).1)
      rw [replaceGenesAux_succ]
      refine ⟨by rw [hlen]; simp, ?_, ?_⟩
      · intro j hj
        rw [hframe j (by omega)]
        exact List.getElem?_set_ne (by omega)
      · intro j hj1 hj2 hj3
        by_cases hji : j = i
        · rw [hframe j (by omega), hji, List.getElem?_set_self (by omega), takeGene_fst]
          simp [hji]
        · have h3 : j < (ch.set i (takeGene o).1).length := by
            rw [List.length_set]; exact hj3
          have harith : j - (i + 1) + 1 = j - i := by omega
          rw [hrepl j (by omega) (by omega) h3, geneAt_takeGene, harith]

/-- The probability branch of mutate, unfolded (sga.hpp line 597 true). -/
theorem mutate_fired {T : Type} [Inhabited T] (cfg : Config) (o : Oracle T)
    (ch : Chromosome T) (h : (drawReal o 0 1).1 ≤ cfg.mutationProbability) :
    mutate cfg o ch =
      replaceGenes (drawInt (drawReal o 0 1).2 0 (ch.length - 1)).1
        (drawInt (drawInt (drawReal o 0 1).2 0 (ch.length - 1)).2
          (drawInt (drawReal o 0 1).2 0 (ch.length - 1)).1 ch.length).1
        (drawInt (drawInt (drawReal o 0 1).2 0 (ch.length - 1)).2
          (drawInt (drawReal o 0 1).2 0 (ch.length - 1)).1 ch.length).2 ch := by
  simp only [mutate]
  rw [if_pos h]

/-- The probability branch of mutate, unfolded (sga.hpp line 597 false). -/
theorem mutate_skipped {T : Type} [Inhabited T] (cfg : Config) (o : Oracle T)
    (ch : Chromosome T) (h : ¬ (drawReal o 0 1).1 ≤ cfg.mutationProbability) :
    mutate cfg o ch = (ch, (drawReal o 0 1).2) := by
  simp only [mutate]
  rw [if_neg h]

/-- C7: on a chromosome of length ≥ 1, mutate leaves the chromosome unchanged
exactly when the probability draw exceeds `_mutationProbability`; otherwise it
draws a start index `b ∈ [0, length-1]` and an end index `e ∈ [b, length]`
and replaces exactly the genes at indices in `[b, e)` with the next genes of
the `randomGene()` stream, leaving the length and every gene outside `[b, e)`
unchanged — in particular, when `b = e` nothing is replaced and no fault
occurs. -/
theorem mutate_spec {T : Type} [Inhabited T] (cfg : Config) (o : Oracle T)
    (ch : Chromosome T) (hlen : 1 ≤ ch.length) :
    (mutate cfg o ch).1.length = ch.length ∧
    (cfg.mutationProbability < (drawReal o 0 1).1 → (mutate cfg o ch).1 = ch) ∧
    ((drawReal o 0 1).1 ≤ cfg.mutationProbability →
      ∃ b e, b < ch.length ∧ b ≤ e ∧ e ≤ ch.length ∧
        (∀ j, j < b ∨ e ≤ j → (mutate cfg o ch).1[j]? = ch[j]?) ∧
        (∀ j, b ≤ j → j < e → (mutate cfg o ch).1[j]? = some (geneAt o (j - b))) ∧
        (b = e → (mutate cfg o ch).1 = ch)) := by
  by_cases hp : (drawReal o 0 1).1 ≤ cfg.mutationProbability
  · rw [mutate_fired cfg o ch hp]
    set o1 := (drawReal o 0 1).2 with ho1
    set b := (drawInt o1 0 (ch.length - 1)).1 with hb
    set e := (drawInt (drawInt o1 0 (ch.length - 1)).2 b ch.length).1 with he
    set o2 := (drawInt (drawInt o1 0 (ch.length - 1)).2 b ch.length).2 with ho2
    have hbb : b ≤ ch.length - 1 := (drawInt_bounds o1 0 (ch.length - 1) (by omega)).2
    have hblt : b < ch.length := by omega
    have hbe : b ≤ e := (drawInt_bounds _ b ch.length (by omega)).1
    have hec : e ≤ ch.length := (drawInt_bounds _ b ch.length (by omega)).2
    obtain ⟨hrl, hrf, hrr⟩ := replaceGenesAux_spec (e - b) b o2 ch
    have hgenes : o2.genes = o.genes := by
      rw [ho2, genes_drawInt, genes_drawInt, ho1, genes_drawReal]
    refine ⟨hrl, ?_, ?_⟩
    · intro hcontra; exact absurd hp (not_le.mpr hcontra)
    · intro _
      refine ⟨b, e, hblt, hbe, hec, ?_, ?_, ?_⟩
      · intro j hj
        exact hrf j (by omega)
      · intro j hj1 hj2
        rw [replaceGenes, hrr j hj1 (by omega) (by omega),
          geneAt_congr o o2 hgenes]
      · intro hbeq
        rw [replaceGenes, hbeq]
        simp [replaceGenesAux]
  · rw [mutate_skipped cfg o ch hp]
    exact ⟨rfl, fun _ => rfl, fun hcontra => absurd hcontra hp⟩

/-- Witness: the C7 theorem applied at a chromosome of length 3 with mutation
probability 1 and draws selecting the replacement range `[1, 3)`; the stream
genes 7 and 8 land at indices 1 and 2. -/
theorem mutate_spec_witness :
    (mutate (⟨3, EndingCriterion.MaxScore, SelectionType.Tournament, 1, 1000, 10,
        1, 1, 1⟩ : Config) (⟨[1,2], [0], [7,8]⟩ : Oracle ℕ) [5,5,5]).1.length =
      ([5,5,5] : Chromosome ℕ).length ∧
    (∃ b e, b < ([5,5,5] : Chromosome ℕ).length ∧ b ≤ e ∧
      e ≤ ([5,5,5] : Chromosome ℕ).length ∧
      (∀ j, j < b ∨ e ≤ j →
        (mutate (⟨3, EndingCriterion.MaxScore, SelectionType.Tournament, 1, 1000, 10,
          1, 1, 1⟩ : Config) (⟨[1,2], [0], [7,8]⟩ : Oracle ℕ) [5,5,5]).1[j]? =
        ([5,5,5] : Chromosome ℕ)[j]?) ∧
      (∀ j, b ≤ j → j < e →
        (mutate (⟨3, EndingCriterion.MaxScore, SelectionType.Tournament, 1, 1000, 10,
          1, 1, 1⟩ : Config) (⟨[1,2], [0], [7,8]⟩ : Oracle ℕ) [5,5,5]).1[j]? =
        some (geneAt (⟨[1,2], [0], [7,8]⟩ : Oracle ℕ) (j - b))) ∧
      (b = e →
        (mutate (⟨3, EndingCriterion.MaxScore, SelectionType.Tournament, 1, 1000, 10,
          1, 1, 1⟩ : Config) (⟨[1,2], [0], [7,8]⟩ : Oracle ℕ) [5,5,5]).1 = [5,5,5])) := by
  refine ⟨(mutate_spec _ _ _ (by norm_num)).1, (mutate_spec _ _ _ (by norm_num)).2.2 ?_⟩
  norm_num [drawReal, takeReal, fract, Rat.floor_def']

/-! The crossover operator. -/

/-- Every gene index the boundary-drawing loop of `cross` marks for exchange
lies below the shorter length `m`. -/
theorem pickExchange_mem {T : Type} (m : Nat) :
    ∀ (fuel : Nat) (o : Oracle T) (index : Nat) (add : Bool) (q : List Nat × Oracle T),
      pickExchange m fuel o index add = some q → ∀ j ∈ q.1, j < m := by
  intro fuel
  induction fuel with
  | zero => intro o index add q h; exact absurd h (by simp [pickExchange])
  | succ n ih =>
      intro o index add q h
      rw [pickExchange] at h
      by_cases hidx : index < m
      · rw [if_pos hidx] at h
        simp only at h
        cases hadd : add with
        | false =>
            rw [hadd] at h
            simp only [Bool.false_eq_true, if_false] at h
            exact ih _ _ _ q h
        | true =>
            rw [hadd] at h
            simp only [if_true] at h
            cases hrec : pickExchange m n (drawInt o index m).2 (drawInt o index m).1 false with
            | none => rw [hrec] at h; exact absurd h (by simp)
            | some q2 =>
                rw [hrec] at h
                have hq : q = (List.range' index ((drawInt o index m).1 - index) ++ q2.1, q2.2) :=
                  (Option.some.injEq _ _ ▸ h).symm
                intro j hj
                rw [hq] at hj
                rcases List.mem_append.mp hj with hj1 | hj2
                · rcases List.mem_range'.mp hj1 with ⟨k, hk, rfl⟩
                  have hub := (drawInt_bounds o index m (le_of_lt hidx)).2
                  have hlb := (drawInt_bounds o index m (le_of_lt hidx)).1
                  omega
                · exact ih _ _ _ q2 hrec j hj2
      · rw [if_neg hidx] at h
        have hq : q = ([], o) := (Option.some.injEq _ _ ▸ h).symm
        rw [hq] at *
        intro j hj
        exact absurd hj (by simp)

theorem swapGenes_length {T : Type} [Inhabited T] :
    ∀ (idxs : List Nat) (d : Chromosome T × Chromosome T),
      (swapGenes idxs d).1.length = d.1.length ∧
      (swapGenes idxs d).2.length = d.2.length := by
  intro idxs
  induction idxs with
  | nil => intro d; exact ⟨rfl, rfl⟩
  | cons i rest ih =>
      intro d
      have h := ih (d.1.set i (d.2.getD i default), d.2.set i (d.1.getD i default))
      rw [swapGenes]
      constructor
      · rw [h.1]; simp
      · rw [h.2]; simp

/-- Positions not marked for exchange are untouched by the swap loop. -/
theorem swapGenes_frame {T : Type} [Inhabited T] :
    ∀ (idxs : List Nat) (d : Chromosome T × Chromosome T) (j : Nat), j ∉ idxs →
      (swapGenes idxs d).1[j]? = d.1[j]? ∧ (swapGenes idxs d).2[j]? = d.2[j]? := by
  intro idxs
  induction idxs with
  | nil => intro d j _; exact ⟨rfl, rfl⟩
  | cons i rest ih =>
      intro d j hj
      have hji : j ≠ i := fun hc => hj (by simp [hc])
      have hjr : j ∉ rest := fun hc => hj (by simp [hc])
      have h := ih (d.1.set i (d.2.getD i default), d.2.set i (d.1.getD i default)) j hjr
      rw [swapGenes]
      constructor
      · rw [h.1]; exact List.getElem?_set_ne (fun hc => hji hc.symm)
      · rw [h.2]; exact List.getElem?_set_ne (fun hc => hji hc.symm)

/-- At every position, the swap loop either keeps both parents' genes in
place or exchanges them. -/
theorem swapGenes_exchange {T : Type} [Inhabited T] (c0 c1 : Chromosome T) :
    ∀ (idxs : List Nat) (d : Chromosome T × Chromosome T),
      d.1.length = c0.length → d.2.length = c1.length →
      (∀ j : Nat, (d.1[j]? = c0[j]? ∧ d.2[j]? = c1[j]?) ∨
            (d.1[j]? = c1[j]? ∧ d.2[j]? = c0[j]?)) →
      (∀ i ∈ idxs, i < c0.length ∧ i < c1.length) →
      ∀ j : Nat, ((swapGenes idxs d).1[j]? = c0[j]? ∧ (swapGenes idxs d).2[j]? = c1[j]?) ∨
        ((swapGenes idxs d).1[j]? = c1[j]? ∧ (swapGenes idxs d).2[j]? = c0[j]?) := by
  intro idxs
  induction idxs with
  | nil => intro d _ _ hinv _ j; exact hinv j
  | cons i rest ih =>
      intro d hl0 hl1 hinv hb j
      have hib := hb i (by simp)
      have hi0 : i < d.1.length := by omega
      have hi1 : i < d.2.length := by omega
      rw [swapGenes]
      refine ih (d.1.set i (d.2.getD i default), d.2.set i (d.1.getD i default))
        (by simpa using hl0) (by simpa using hl1) ?_ (fun x hx => hb x (by simp [hx])) j
      intro k
      by_cases hki : k = i
      · subst hki
        have hd1 : (d.1.set k (d.2.getD k default))[k]? = d.2[k]? := by
          rw [List.getElem?_set_self hi0, List.getD_eq_getElem?_getD,
            List.getElem?_eq_getElem hi1]
          rfl
        have hd2 : (d.2.set k (d.1.getD k default))[k]? = d.1[k]? := by
          rw [List.getElem?_set_self hi1, List.getD_eq_getElem?_getD,
            List.getElem?_eq_getElem hi0]
          rfl
        rcases hinv k with hcase | hcase
        · exact Or.inr ⟨by rw [hd1]; exact hcase.2, by rw [hd2]; exact hcase.1⟩
        · exact Or.inl ⟨by rw [hd1]; exact hcase.2, by rw [hd2]; exact hcase.1⟩
      · have hd1 : (d.1.set i (d.2.getD i default))[k]? = d.1[k]? :=
          List.getElem?_set_ne (fun hc => hki hc.symm)
        have hd2 : (d.2.set i (d.1.getD i default))[k]? = d.2[k]? :=
          List.getElem?_set_ne (fun hc => hki hc.symm)
        rcases hinv k with hcase | hcase
        · exact Or.inl ⟨by rw [hd1]; exact hcase.1, by rw [hd2]; exact hcase.2⟩
        · exact Or.inr ⟨by rw [hd1]; exact hcase.1, by rw [hd2]; exact hcase.2⟩

/-- C6: whenever `cross` returns (the boundary-drawing loop terminated within
its fuel), its two outputs keep the corresponding input lengths; with `m` the
length of the shorter input, every gene at a position ≥ `m` is unchanged in
both outputs, and every position either keeps both parents' genes in place or
exchanges them between the two offspring. -/
theorem cross_spec {T : Type} [Inhabited T] (o : Oracle T) (c0 c1 : Chromosome T)
    (fuel : Nat) (r : Chromosome T × Chromosome T × Oracle T)
    (h : cross o c0 c1 fuel = some r) :
    r.1.length = c0.length ∧ r.2.1.length = c1.length ∧
    (∀ j : Nat, min c0.length c1.length ≤ j → r.1[j]? = c0[j]? ∧ r.2.1[j]? = c1[j]?) ∧
    (∀ j : Nat, (r.1[j]? = c0[j]? ∧ r.2.1[j]? = c1[j]?) ∨
          (r.1[j]? = c1[j]? ∧ r.2.1[j]? = c0[j]?)) := by
  rw [cross] at h
  cases hpe : pickExchange (min c0.length c1.length) fuel o 0 true with
  | none => rw [hpe] at h; exact absurd h (by simp)
  | some q =>
      rw [hpe] at h
      simp only [Option.some.injEq] at h
      have hmem := pickExchange_mem (min c0.length c1.length) fuel o 0 true q hpe
      have hbound : ∀ i ∈ q.1, i < c0.length ∧ i < c1.length := by
        intro i hi
        have := hmem i hi
        rw [lt_min_iff] at this
        exact this
      have hswl := swapGenes_length q.1 (c0, c1)
      have hframe := swapGenes_frame q.1 (c0, c1)
      have hexch := swapGenes_exchange c0 c1 q.1 (c0, c1) rfl rfl
        (fun j => Or.inl ⟨rfl, rfl⟩) hbound
      rw [← h]
      refine ⟨hswl.1, hswl.2, ?_, hexch⟩
      intro j hj
      refine hframe j ?_
      intro hc
      exact absurd (hmem j hc) (by omega)

/-- Witness: the C6 theorem applied at a concrete crossover of `[5]` and
`[7]` whose single draw marks position 0 for exchange. -/
theorem cross_spec_witness :
    ∃ r : Chromosome ℕ × Chromosome ℕ × Oracle ℕ,
      cross (⟨[1], [], []⟩ : Oracle ℕ) [5] [7] 5 = some r ∧
      r.1.length = ([5] : Chromosome ℕ).length ∧
      r.2.1.length = ([7] : Chromosome ℕ).length ∧
      (∀ j : Nat, 1 ≤ j → r.1[j]? = ([5] : Chromosome ℕ)[j]? ∧
        r.2.1[j]? = ([7] : Chromosome ℕ)[j]?) := by
  have h : cross (⟨[1], [], []⟩ : Oracle ℕ) [5] [7] 5 =
      some ([7], [5], (⟨[], [], []⟩ : Oracle ℕ)) := by
    norm_num [cross, pickExchange, swapGenes, drawInt, takeInt]
  obtain ⟨h1, h2, h3, _⟩ := cross_spec _ [5] [7] 5 _ h
  exact ⟨_, h, h1, h2, fun j hj => h3 j (by simpa using hj)⟩

/-! Size of the working population after a generation's refill. -/

/-- C2 (amended): whenever the population-refill loop of a generation
completes, the working population it hands to mutation holds at least
`_populationSize` chromosomes — the final crossover batch may overshoot the
boundary, so equality is not guaranteed — and the mutation pass preserves the
count exactly, so the population scored at the start of the next generation
has that same size. -/
theorem refill_ge_populationSize :
    (∀ (T : Type), ∀ _ : Inhabited T, ∀ (cfg : Config) (st : Store T) (fuel : Nat)
      (o : Oracle T) (pop pop2 : Population T) (o2 : Oracle T),
      refill cfg st fuel o pop = some (pop2, o2) → cfg.populationSize ≤ pop2.length) ∧
    (∀ (T : Type), ∀ _ : Inhabited T, ∀ (cfg : Config) (o : Oracle T)
      (pop : Population T), (mutateAll cfg o pop).1.length = pop.length) := by
  constructor
  · intro T _ cfg st fuel
    induction fuel with
    | zero => intro o pop pop2 o2 h; exact absurd h (by simp [refill])
    | succ n ih =>
        intro o pop pop2 o2 h
        rw [refill] at h
        by_cases hlt : pop.length < cfg.populationSize
        · rw [if_pos hlt] at h
          cases hg : gather cfg st n o [] with
          | none => rw [hg] at h; exact absurd h (by simp)
          | some pg =>
              obtain ⟨sel, o1⟩ := pg
              rw [hg] at h
              dsimp only at h
              cases hc : crossPairs sel n 0 (sel.length / 2) o1 with
              | none => rw [hc] at h; exact absurd h (by simp)
              | some pc =>
                  obtain ⟨offspring, o3⟩ := pc
                  rw [hc] at h
                  exact ih o3 (pop ++ offspring) pop2 o2 h
        · rw [if_neg hlt] at h
          have hq : pop = pop2 := congrArg Prod.fst (Option.some_inj.mp h)
          subst hq
          omega
  · intro T _ cfg o pop
    induction pop generalizing o with
    | nil => rfl
    | cons ch rest ih => simp [mutateAll, ih]

/-- Witness: the C2 amended theorem applied at population size 3 with
tournament selection of size 1 — the refill completes with 4 ≥ 3 chromosomes
and mutation keeps a 2-element population at 2. -/
theorem refill_ge_populationSize_witness :
    ((⟨3, EndingCriterion.MaxScore, SelectionType.Tournament, 1/100, 1000, 10,
        1, 1, 1⟩ : Config)).populationSize ≤ ([[0],[0],[0],[0]] : Population ℕ).length ∧
    (mutateAll (⟨3, EndingCriterion.MaxScore, SelectionType.Tournament, 1/100, 1000, 10,
        1, 1, 1⟩ : Config) (⟨[], [], []⟩ : Oracle ℕ) [[1],[2]]).1.length =
      ([[1],[2]] : Population ℕ).length := by
  constructor
  · refine refill_ge_populationSize.1 ℕ inferInstance _
      (scorePop (fun _ => (0:ℚ)) [[0],[0],[0]]) 20 ⟨[0,0,1,0,0,1], [], []⟩ []
      [[0],[0],[0],[0]] ⟨[], [], []⟩ ?_
    norm_num [refill, gather, select, drawIndices, tournamentScan, scoreAt,
      chromosomeAt?, best?, lastElement?, cross, pickExchange, crossPairs, swapGenes,
      drawInt, takeInt, scorePop, storeInsert, totalScore]
  · exact refill_ge_populationSize.2 ℕ inferInstance _ ⟨[], [], []⟩ [[1],[2]]

/-- C2 counterexample: with populationSize = 3 (odd) and tournament selection
of size 1, the refill loop of one generation completes with 4 chromosomes:
each pass appends a full crossover batch of 2, so the working population
reaches 4 ≠ 3.  The working population handed to mutation therefore does not
contain exactly populationSize chromosomes for every selection type and
draw. -/
theorem population_exact_size_counterexample :
    (refill (⟨3, EndingCriterion.MaxScore, SelectionType.Tournament, 1/100, 1000, 10,
        1, 1, 1⟩ : Config) (scorePop (fun _ => (0:ℚ)) [[0],[0],[0]]) 20
      (⟨[0,0,1,0,0,1], [], []⟩ : Oracle ℕ) []).map (fun p => p.1.length) = some 4 ∧
    (4 : Nat) ≠ 3 := by
  constructor
  · norm_num [refill, gather, select, drawIndices, tournamentScan, scoreAt,
      chromosomeAt?, best?, lastElement?, cross, pickExchange, crossPairs, swapGenes,
      drawInt, takeInt, scorePop, storeInsert, totalScore]
  · norm_num

/-! Stochastic universal sampling. -/

/-- Structure of a completed SUS collection loop: the i-th selected chromosome
is the one at cumulative score `pos + i·spacing`, every visited position is
within the total score, and the first unvisited position exceeds it. -/
theorem susLoop_spec {T : Type} (st : Store T) (spacing total : ℚ) :
    ∀ (fuel : Nat) (pos : ℚ) (sel : Population T),
      susLoop st spacing total pos fuel = some sel →
      (∀ i : Nat, i < sel.length →
        pos + (i : ℚ) * spacing ≤ total ∧
        sel[i]? = chromosomeByFitness? st (pos + (i : ℚ) * spacing)) ∧
      total < pos + (sel.length : ℚ) * spacing := by
  intro fuel
  induction fuel with
  | zero => intro pos sel h; exact absurd h (by simp [susLoop])
  | succ n ih =>
      intro pos sel h
      rw [susLoop] at h
      by_cases hpos : pos ≤ total
      · rw [if_pos hpos] at h
        cases hcf : chromosomeByFitness? st pos with
        | none => rw [hcf] at h; exact absurd h (by simp)
        | some c =>
            rw [hcf] at h
            cases hrec : susLoop st spacing total (pos + spacing) n with
            | none => rw [hrec] at h; exact absurd h (by simp)
            | some rest =>
                rw [hrec] at h
                have hsel : sel = c :: rest := (Option.some_inj.mp h).symm
                subst hsel
                obtain ⟨hall, hlast⟩ := ih (pos + spacing) rest hrec
                constructor
                · intro i hi
                  cases i with
                  | zero =>
                      refine ⟨by simpa using hpos, ?_⟩
                      simpa using hcf.symm
                  | succ m =>
                      have hm : m < rest.length := by simpa using hi
                      obtain ⟨hle, hget⟩ := hall m hm
                      have harith : pos + ((m : ℚ) + 1) * spacing =
                          pos + spacing + (m : ℚ) * spacing := by ring
                      constructor
                      · push_cast
                        rw [harith]
                        exact hle
                      · have : ((c :: rest)[m + 1]? : Option (Chromosome T)) = rest[m]? := by
                          simp
                        rw [this, hget]
                        congr 1
                        push_cast
                        rw [harith]
                · have harith : pos + ((rest.length : ℚ) + 1) * spacing =
                      pos + spacing + (rest.length : ℚ) * spacing := by ring
                  simp only [List.length_cons]
                  push_cast
                  rw [harith]
                  exact hlast
      · rw [if_neg hpos] at h
        have hsel : sel = [] := (Option.some_inj.mp h).symm
        subst hsel
        constructor
        · intro i hi; simp at hi
        · simpa using lt_of_not_le hpos

/-- C9 (amended): a StochasticUniversal selection on a store of
`populationSize` entries (≥ 10, so the draw range is well defined) with
positive total score draws `k` uniformly in `[1, populationSize/10]`, a
spacing of `totalScore()/k` and an offset in `[0, spacing)`, and returns
exactly the chromosomes at cumulative scores `offset, offset+spacing, ...`
while ≤ `totalScore()` — between 1 and `k + 1` of them (`k + 1` can be
attained, e.g. with offset 0). -/
theorem susSelect_spec {T : Type} (cfg : Config) (st : Store T) (o : Oracle T)
    (fuel : Nat) (sel : Population T) (o2 : Oracle T)
    (hsel : cfg.selectionType = SelectionType.StochasticUniversal)
    (hsize : st.length = cfg.populationSize)
    (h10 : 10 ≤ cfg.populationSize)
    (hts : 0 < totalScore st)
    (h : select cfg st o fuel = some (sel, o2)) :
    ∃ k spacing first,
      k = (drawInt o 1 (cfg.populationSize / 10)).1 ∧
      1 ≤ k ∧ k ≤ cfg.populationSize / 10 ∧
      spacing = totalScore st / (k : ℚ) ∧
      first = (drawReal (drawInt o 1 (cfg.populationSize / 10)).2 0 spacing).1 ∧
      0 ≤ first ∧ first < spacing ∧
      (∀ i : Nat, i < sel.length →
        first + (i : ℚ) * spacing ≤ totalScore st ∧
        sel[i]? = chromosomeByFitness? st (first + (i : ℚ) * spacing)) ∧
      totalScore st < first + (sel.length : ℚ) * spacing ∧
      1 ≤ sel.length ∧ sel.length ≤ k + 1 := by
  rw [select, hsel] at h
  rw [hsize] at h
  dsimp only at h
  set k := (drawInt o 1 (cfg.populationSize / 10)).1 with hk
  set spacing := totalScore st / (k : ℚ) with hspacing
  set first := (drawReal (drawInt o 1 (cfg.populationSize / 10)).2 0 spacing).1 with hfirst
  have hkb := drawInt_bounds o 1 (cfg.populationSize / 10) (by omega)
  have hk1 : 1 ≤ k := hkb.1
  have hkQ : (1 : ℚ) ≤ (k : ℚ) := by exact_mod_cast hk1
  have hsp : 0 < spacing := by
    rw [hspacing]
    exact div_pos hts (by linarith)
  have hf0 : 0 ≤ first := by
    rw [hfirst, drawReal]
    simp only [sub_zero, zero_add]
    exact mul_nonneg (le_of_lt hsp) (fract_nonneg _)
  have hfs : first < spacing := by
    rw [hfirst, drawReal]
    simp only [sub_zero, zero_add]
    calc spacing * fract (takeReal (drawInt o 1 (cfg.populationSize / 10)).2).1
        < spacing * 1 := by
          exact mul_lt_mul_of_pos_left (fract_lt_one _) hsp
    _ = spacing := mul_one spacing
  cases hloop : susLoop st spacing (totalScore st) first fuel with
  | none => rw [hloop] at h; exact absurd h (by simp)
  | some sel2 =>
      rw [hloop] at h
      have hsel2 : sel2 = sel := congrArg Prod.fst (Option.some_inj.mp h)
      subst hsel2
      obtain ⟨hall, hlast⟩ := susLoop_spec st spacing (totalScore st) fuel first sel2 hloop
      have hktotal : (k : ℚ) * spacing = totalScore st := by
        rw [hspacing]
        field_simp
      have hlen1 : 1 ≤ sel2.length := by
        by_contra hcon
        have h0 : sel2.length = 0 := by omega
        rw [h0] at hlast
        simp only [Nat.cast_zero, zero_mul, add_zero] at hlast
        have : first < totalScore st := by
          calc first < spacing := hfs
          _ = totalScore st / (k : ℚ) := hspacing
          _ ≤ totalScore st / 1 := by
              apply div_le_div_of_nonneg_left (le_of_lt hts) one_pos hkQ
          _ = totalScore st := div_one _
        linarith
      have hlenk : sel2.length ≤ k + 1 := by
        by_contra hcon
        have hlt : k + 1 < sel2.length := by omega
        obtain ⟨hle, _⟩ := hall (k + 1) hlt
        have : totalScore st + spacing ≤ totalScore st := by
          calc totalScore st + spacing = (k : ℚ) * spacing + spacing := by rw [hktotal]
          _ = ((k : ℚ) + 1) * spacing := by ring
          _ ≤ first + ((k : ℚ) + 1) * spacing := by linarith
          _ = first + (((k + 1 : Nat) : ℚ)) * spacing := by push_cast; ring
          _ ≤ totalScore st := hle
        linarith
      exact ⟨k, spacing, first, rfl, hk1, hkb.2, rfl, rfl, hf0, hfs, hall, hlast,
        hlen1, hlenk⟩

/-- Ten-entry store of unit scores used by the SUS examples. -/
def susExampleStore : Store ℕ :=
  [(1, [0]), (1, [1]), (1, [2]), (1, [3]), (1, [4]),
   (1, [5]), (1, [6]), (1, [7]), (1, [8]), (1, [9])]

/-- Witness: the C9 amended theorem applied at a 10-entry store of unit
scores whose draws give `k = 1` and offset 0, returning the 2 chromosomes at
cumulative scores 0 and 10. -/
theorem susSelect_spec_witness :
    ∃ k spacing first,
      k = (drawInt (⟨[0], [0], []⟩ : Oracle ℕ) 1 (10 / 10)).1 ∧
      1 ≤ k ∧ k ≤ 10 / 10 ∧
      spacing = totalScore susExampleStore / (k : ℚ) ∧
      first = (drawReal (drawInt (⟨[0], [0], []⟩ : Oracle ℕ) 1 (10 / 10)).2 0 spacing).1 ∧
      0 ≤ first ∧ first < spacing ∧
      (∀ i : Nat, i < ([[0], [9]] : Population ℕ).length →
        first + (i : ℚ) * spacing ≤ totalScore susExampleStore ∧
        ([[0], [9]] : Population ℕ)[i]? =
          chromosomeByFitness? susExampleStore (first + (i : ℚ) * spacing)) ∧
      totalScore susExampleStore <
        first + (([[0], [9]] : Population ℕ).length : ℚ) * spacing ∧
      1 ≤ ([[0], [9]] : Population ℕ).length ∧ ([[0], [9]] : Population ℕ).length ≤ k + 1 := by
  refine susSelect_spec
    (⟨10, EndingCriterion.MaxScore, SelectionType.StochasticUniversal, 1/100, 1000, 10,
      1, 1, 1⟩ : Config) susExampleStore (⟨[0], [0], []⟩ : Oracle ℕ) 5 [[0], [9]]
    (⟨[], [], []⟩ : Oracle ℕ) rfl (by norm_num [susExampleStore]) (by norm_num)
    (by norm_num [susExampleStore, totalScore]) ?_
  norm_num [susExampleStore, select, susLoop, chromosomeByFitness?, chromosomeByFitnessAux,
    best?, lastElement?, drawInt, takeInt, drawReal, takeReal, fract, Rat.floor_def',
    totalScore]

/-- C9 counterexample: on the 10-entry unit-score store the draw gives
`k = 1` (the range `[1, populationSize/10]` is `[1, 1]`), spacing 10 and
offset 0, and the selection returns the chromosomes at cumulative scores 0
and 10 — 2 of them, which exceeds `k`: the result is not always between 1 and
`k` chromosomes. -/
theorem sus_count_counterexample :
    (drawInt (⟨[0], [0], []⟩ : Oracle ℕ) 1 (susExampleStore.length / 10)).1 = 1 ∧
    (select (⟨10, EndingCriterion.MaxScore, SelectionType.StochasticUniversal, 1/100,
        1000, 10, 1, 1, 1⟩ : Config) susExampleStore (⟨[0], [0], []⟩ : Oracle ℕ) 5).map
      (fun p => p.1.length) = some 2 ∧
    ¬ ((2 : Nat) ≤ 1) := by
  refine ⟨?_, ?_, by norm_num⟩
  · norm_num [susExampleStore, drawInt, takeInt]
  · norm_num [susExampleStore, select, susLoop, chromosomeByFitness?,
      chromosomeByFitnessAux, best?, lastElement?, drawInt, takeInt, drawReal, takeReal,
      fract, Rat.floor_def', totalScore]

/-! Validation at run start. -/

/-- C8 (amended): `run` raises its configuration error exactly when the
selection type is Tournament and the tournament size exceeds the population
size; the error is raised before the run state is reset, the initial
population is seeded or any evolution is started — identically in blocking
and non-blocking mode — and the engine at the throw site has all algorithmic
state (run flag, generation counter, score history, population store,
configuration) unchanged; only the logging configuration, which `run` updates
before validating, carries the new value. -/
theorem run_validation_spec :
    ∀ (T : Type), ∀ _ : Inhabited T, ∀ (e : Engine T) (score : Chromosome T → Score)
      (blocking el : Bool) (o : Oracle T) (g i : Nat),
      ((∃ e2, run e score blocking el o g i = RunResult.error e2) ↔
        (e.selectionType = SelectionType.Tournament ∧
          e.populationSize < e.tournamentSize)) ∧
      (∀ e2, run e score blocking el o g i = RunResult.error e2 →
        e2 = { e with logEnable := el }) := by
  intro T _ e score blocking el o g i
  by_cases hcond : e.selectionType = SelectionType.Tournament ∧
      e.populationSize < e.tournamentSize
  · have hcond2 : ({ e with logEnable := el } : Engine T).selectionType =
        SelectionType.Tournament ∧
        ({ e with logEnable := el } : Engine T).populationSize <
          ({ e with logEnable := el } : Engine T).tournamentSize := hcond
    have hrun : run e score blocking el o g i =
        RunResult.error { e with logEnable := el } := by
      simp only [run]
      rw [if_pos hcond2]
    refine ⟨⟨fun _ => hcond, fun _ => ⟨_, hrun⟩⟩, ?_⟩
    intro e2 h2
    rw [hrun] at h2
    injection h2 with h3
    exact h3.symm
  · have hcond2 : ¬ (({ e with logEnable := el } : Engine T).selectionType =
        SelectionType.Tournament ∧
        ({ e with logEnable := el } : Engine T).populationSize <
          ({ e with logEnable := el } : Engine T).tournamentSize) := hcond
    have hne : ∀ e2, run e score blocking el o g i ≠ RunResult.error e2 := by
      intro e2 hc
      simp only [run] at hc
      rw [if_neg hcond2] at hc
      cases blocking with
      | false => simp at hc
      | true =>
          simp only [if_true] at hc
          cases hev : evolveLoop ({ e with logEnable := el, lastScores := ([] : List Score), runFlag := true, generation := 0 } : Engine T).toConfig score g i
              (seedPop ({ e with logEnable := el, lastScores := ([] : List Score), runFlag := true, generation := 0 } : Engine T).minChromosomeSize
                ({ e with logEnable := el, lastScores := ([] : List Score), runFlag := true, generation := 0 } : Engine T).maxChromosomeSize
                ({ e with logEnable := el, lastScores := ([] : List Score), runFlag := true, generation := 0 } : Engine T).populationSize o).2
              (seedPop ({ e with logEnable := el, lastScores := ([] : List Score), runFlag := true, generation := 0 } : Engine T).minChromosomeSize
                ({ e with logEnable := el, lastScores := ([] : List Score), runFlag := true, generation := 0 } : Engine T).maxChromosomeSize
                ({ e with logEnable := el, lastScores := ([] : List Score), runFlag := true, generation := 0 } : Engine T).populationSize o).1
              ({ e with logEnable := el, lastScores := ([] : List Score), runFlag := true, generation := 0 } : Engine T).toState with
          | mk r trace =>
              rw [hev] at hc
              cases r with
              | none => simp at hc
              | some pr => simp at hc
    refine ⟨⟨?_, fun hc => absurd hc hcond⟩, ?_⟩
    · rintro ⟨e2, h2⟩
      exact absurd h2 (hne e2)
    · intro e2 h2
      exact absurd h2 (hne e2)

/-- Witness: the C8 amended theorem applied at a concrete engine with
population size 2 and the default tournament size 10, in non-blocking mode. -/
theorem run_validation_spec_witness :
    (∃ e2, run ({ initialEngine ℕ with populationSize := 2 }) (fun _ => (0:ℚ)) false true
        (⟨[], [], []⟩ : Oracle ℕ) 1 1 = RunResult.error e2) ↔
      (({ initialEngine ℕ with populationSize := 2 } : Engine ℕ).selectionType =
          SelectionType.Tournament ∧
        ({ initialEngine ℕ with populationSize := 2 } : Engine ℕ).populationSize <
          ({ initialEngine ℕ with populationSize := 2 } : Engine ℕ).tournamentSize) :=
  (run_validation_spec ℕ inferInstance ({ initialEngine ℕ with populationSize := 2 })
    (fun _ => (0:ℚ)) false true ⟨[], [], []⟩ 1 1).1

/-- C8 counterexample: a freshly constructed engine with population size 2
(and the default tournament selection of size 10) throws the configuration
error on `run`, but the engine state at the throw carries the new logging
flag: `run` sets `_logEnable` before validating, so the engine state is not
left entirely unchanged. -/
theorem run_state_unchanged_counterexample :
    run ({ initialEngine ℕ with populationSize := 2 }) (fun _ => (0:ℚ)) true true
      (⟨[], [], []⟩ : Oracle ℕ) 1 1 =
      RunResult.error { initialEngine ℕ with populationSize := 2, logEnable := true } ∧
    ({ initialEngine ℕ with populationSize := 2 } : Engine ℕ).logEnable = false ∧
    ({ initialEngine ℕ with populationSize := 2, logEnable := true } :
      Engine ℕ).logEnable = true := by
  refine ⟨?_, rfl, rfl⟩
  simp only [run]
  norm_num [initialEngine]

end SGA
